import Mathlib

/-!
Verification development for the `m_tree` repository (an in-memory metric
index).  The definitions below are a shallow embedding of the Python source
in `src/m_tree/classes.py` and `src/m_tree/helpers.py` (and, where a claim
cites it, `src/mtree4.py`).  Python numbers (int/float distances) are
embedded as rationals; mutation is embedded as explicit state passing.

The binary heaps backing `PriorityQueue` and `LimitedSet` are embedded as
entry lists with minimum extraction: `heapq.heappush` appends an entry and
`heapq.heappop` removes the lexicographically least entry, which is exactly
the observable behaviour of the Python heap (entries carry a unique
monotone counter, so the minimum is unique).  Only the internal array
layout — which the program observes solely through the final iteration
order of `LimitedSet`, an order the spec leaves unconstrained — is
abstracted.
-/

set_option maxHeartbeats 1000000

namespace MT

/-- The node hierarchy of `classes.py`: `ValueNode` wraps one value (its
`radius` is the constant `0` it inherits from `Node`), `ParentNode` carries
a router value, a covering radius and a list of children. -/
inductive Node (V : Type) where
  | value (router : V)
  | parent (router : V) (radius : ℚ) (children : List (Node V))

section DecEq

variable {V : Type} [DecidableEq V]

mutual
/-- Structural decidable equality of nodes (the nested inductive prevents
deriving it). -/
def nodeDecEq : (a b : Node V) → Decidable (a = b)
  | .value x, .value y =>
    if h : x = y then .isTrue (by rw [h]) else .isFalse (by simp [h])
  | .value _, .parent _ _ _ => .isFalse (by simp)
  | .parent _ _ _, .value _ => .isFalse (by simp)
  | .parent r1 a1 cs1, .parent r2 a2 cs2 =>
    if h1 : r1 = r2 then
      if h2 : a1 = a2 then
        match nodeListDecEq cs1 cs2 with
        | .isTrue h3 => .isTrue (by rw [h1, h2, h3])
        | .isFalse h3 => .isFalse (by simp [h3])
      else .isFalse (by simp [h2])
    else .isFalse (by simp [h1])

/-- Decidable equality of node lists. -/
def nodeListDecEq : (a b : List (Node V)) → Decidable (a = b)
  | [], [] => .isTrue rfl
  | [], _ :: _ => .isFalse (by simp)
  | _ :: _, [] => .isFalse (by simp)
  | x :: xs, y :: ys =>
    match nodeDecEq x y, nodeListDecEq xs ys with
    | .isTrue h1, .isTrue h2 => .isTrue (by rw [h1, h2])
    | .isFalse h1, _ => .isFalse (by simp [h1])
    | .isTrue _, .isFalse h2 => .isFalse (by simp [h2])
end

instance : DecidableEq (Node V) := nodeDecEq

end DecEq

namespace Node

variable {V : Type}

/-- `Node.router`. -/
def router : Node V → V
  | .value r => r
  | .parent r _ _ => r

/-- `Node.radius` (`0` for a `ValueNode`). -/
def radius : Node V → ℚ
  | .value _ => 0
  | .parent _ rad _ => rad

/-- `isinstance(node, ParentNode)`. -/
def isParent : Node V → Bool
  | .value _ => false
  | .parent _ _ _ => true

/-- The children list (`[]` for a `ValueNode`, which has none). -/
def childList : Node V → List (Node V)
  | .value _ => []
  | .parent _ _ cs => cs

end Node

variable {V : Type}

/-- Python's binary `max` on rationals, written with the decidable order so
that it evaluates in the kernel (equal to Mathlib's `max`, see
`qmax_eq_max`). -/
def qmax (a b : ℚ) : ℚ := if a ≤ b then b else a

/-- Python's `abs` on rationals, written with the decidable order (equal to
Mathlib's `|·|`, see `qabs_eq_abs`). -/
def qabs (a : ℚ) : ℚ := if a < 0 then -a else a

/-- `Node.distance` applied to another node: `d(self.router, item.router)
plus `item.radius`. -/
def nodeDist (d : V → V → ℚ) (a b : Node V) : ℚ :=
  d a.router b.router + b.radius

/-- `Node.min_distance`: `max(0, d(router, value) - radius)`. -/
def minDistance (d : V → V → ℚ) (n : Node V) (v : V) : ℚ :=
  qmax 0 (d n.router v - n.radius)

/-- `Node.max_distance`: `d(router, value) + radius`. -/
def maxDistance (d : V → V → ℚ) (n : Node V) (v : V) : ℚ :=
  d n.router v + n.radius

mutual
/-- `Node.__iter__`: the stored values of a subtree, in child order. -/
def Node.values : Node V → List V
  | .value r => [r]
  | .parent _ _ cs => valuesL cs

/-- Concatenated values of a list of nodes. -/
def valuesL : List (Node V) → List V
  | [] => []
  | c :: cs => c.values ++ valuesL cs
end

mutual
/-- All nodes of a subtree (the subtree root included), in preorder. -/
def Node.subnodes : Node V → List (Node V)
  | .value r => [.value r]
  | .parent r rad cs => .parent r rad cs :: subnodesL cs

/-- Concatenated subnodes of a list of nodes. -/
def subnodesL : List (Node V) → List (Node V)
  | [] => []
  | c :: cs => c.subnodes ++ subnodesL cs
end

mutual
/-- `Node.__contains__` / `ValueNode.__contains__`. -/
def Node.containsV [DecidableEq V] (v : V) : Node V → Bool
  | .value r => v = r
  | .parent _ _ cs => containsL v cs

/-- `any(item in node for node in children)`. -/
def containsL [DecidableEq V] (v : V) : List (Node V) → Bool
  | [] => false
  | c :: cs => c.containsV v || containsL v cs
end

/-- Worker for `pyArgmin`: scan the tail keeping the first minimizer, as
CPython's `min(..., key=...)` does (strict `<` replaces the best). -/
def pyArgminGo (g : Node V → ℚ) : List (Node V) → ℕ → ℕ → ℚ → ℕ
  | [], _, bi, _ => bi
  | x :: xs, ci, bi, bv =>
    if g x < bv then pyArgminGo g xs (ci + 1) ci (g x)
    else pyArgminGo g xs (ci + 1) bi bv

/-- Index of the first minimizer of `g`, mirroring
`min(self.children, key=...)`; `0` on `[]` (where Python raises). -/
def pyArgmin (g : Node V → ℚ) : List (Node V) → ℕ
  | [] => 0
  | x :: xs => pyArgminGo g xs 1 0 (g x)

/-- Result of the in-place mutation done by `ParentNode.insert` /
`add_child`: either the node updated in place, or — when a split happened
at this node — the two nodes the original was replaced by (`self` after
`set_children(a_list)` and the `new_node` handed to the parent). -/
inductive InsResult (V : Type) where
  | one (n : Node V)
  | two (a b : Node V)

/-- The partition loop of `promote_and_partition`: each remaining candidate
joins the promoted node (`a` or `b`) whose `Node.distance` to it is
smaller, ties favouring `b` (the loop tests `a.distance(item) <
b.distance(item)`). -/
def partitionAB (d : V → V → ℚ) (a b : Node V) : List (Node V) → List (Node V) × List (Node V)
  | [] => ([], [])
  | x :: xs =>
    let p := partitionAB d a b xs
    if nodeDist d a x < nodeDist d b x then (x :: p.1, p.2) else (p.1, x :: p.2)

/-- The radius computed by `set_children`:
`max(self.distance(child) for child in children)` with the router taken
from the first child. -/
def coverRadius (d : V → V → ℚ) (r : V) (c : Node V) (cs : List (Node V)) : ℚ :=
  cs.foldl (fun m x => qmax m (nodeDist d (.value r) x)) (nodeDist d (.value r) c)

/-- `set_children` applied to a nonempty list `c :: cs`: the router becomes
the first child's router and the radius is recomputed from all children. -/
def mkParent (d : V → V → ℚ) (c : Node V) (cs : List (Node V)) : Node V :=
  .parent c.router (coverRadius d c.router c cs) (c :: cs)

/-- `ParentNode.add_child` on a node with router `r`, radius `rad` and
children `cs`: split when at capacity, otherwise `_add_child` (append and
grow the radius by `self.distance(child)`). -/
def addChildF (d : V → V → ℚ) (cap : ℕ) (r : V) (rad : ℚ) (cs : List (Node V))
    (child : Node V) : InsResult V :=
  if cap ≤ cs.length then
    match cs ++ [child] with
    | a :: b :: cands =>
      let p := partitionAB d a b cands
      .two (mkParent d a p.1) (mkParent d b p.2)
    | other =>
      -- unreachable: a split always has at least two candidates, because
      -- children lists are never empty (Python would raise on unpacking)
      .one (.parent r rad other)
  else .one (.parent r (qmax rad (nodeDist d (.value r) child)) (cs ++ [child]))

mutual
/-- `ParentNode.insert` of `classes.py`: at a leaf-level router wrap the
value and `add_child`; otherwise grow this radius to cover the value and
recurse into the child minimizing `distance(child, value)` (no covering
check — that variant lives in `mtree4.py`).  A split below is absorbed by
replacing the split child in place and `add_child`-ing the new sibling. -/
def Node.insertT (d : V → V → ℚ) (cap : ℕ) (v : V) : Node V → InsResult V
  | .value r => .one (.value r)   -- unreachable: insert is only called on routers
  | .parent r rad cs =>
    match cs with
    | [] => .one (.parent r rad [])   -- unreachable: children are never empty
    | .value w :: cs' => addChildF d cap r rad (.value w :: cs') (.value v)
    | .parent cr crad ccs :: cs' =>
      let kids : List (Node V) := .parent cr crad ccs :: cs'
      let rad1 := qmax rad (d r v)
      let p := insertL d cap v (pyArgmin (fun x => d x.router v) kids) kids
      match p.2 with
      | none => .one (.parent r rad1 p.1)
      | some b => addChildF d cap r rad1 p.1 b

/-- Recurse into the `i`-th child, replacing it in place; a sibling created
by a split below is returned for the caller to absorb. -/
def insertL (d : V → V → ℚ) (cap : ℕ) (v : V) : ℕ → List (Node V) → List (Node V) × Option (Node V)
  | _, [] => ([], none)   -- unreachable: the argmin index is in range
  | 0, c :: cs =>
    match Node.insertT d cap v c with
    | .one n => (n :: cs, none)
    | .two a b => (a :: cs, some b)
  | i + 1, c :: cs =>
    let p := insertL d cap v i cs
    (c :: p.1, p.2)
end

/-- The tree object: capacity, insertion counter and root (`()` ↦ `none`).
The distance function is passed to the operations explicitly. -/
structure MTreeS (V : Type) where
  node_capacity : ℕ
  length : ℕ
  root : Option (Node V)

/-- `MTree.__init__` with no initial values. -/
def mtreeEmpty (cap : ℕ) : MTreeS V := ⟨cap, 0, none⟩

/-- `MTree.insert`: bump the length; an empty root becomes a singleton
router, otherwise delegate to the root and adopt its parent when the root
split. -/
def mtreeInsert (d : V → V → ℚ) (t : MTreeS V) (v : V) : MTreeS V :=
  { t with
    length := t.length + 1
    root := some (match t.root with
      | none => mkParent d (.value v) []
      | some rt =>
        match rt.insertT d t.node_capacity v with
        | .one n => n
        | .two a b => mkParent d a [b]) }

/-- `MTree.__init__(values, node_capacity=cap)`: insert the initial values
in order (no validation of the capacity is performed). -/
def mtreeOfList (d : V → V → ℚ) (cap : ℕ) (vs : List V) : MTreeS V :=
  vs.foldl (mtreeInsert d) (mtreeEmpty cap)

/-- `MTree.__iter__` (`yield from self.root`; the empty tuple yields
nothing). -/
def mtreeValues (t : MTreeS V) : List V :=
  match t.root with
  | none => []
  | some rt => rt.values

/-- `MTree.__contains__` (`item in ()` is `False`). -/
def mtreeContains [DecidableEq V] (t : MTreeS V) (v : V) : Bool :=
  match t.root with
  | none => false
  | some rt => rt.containsV v

/-! ### The bounded priority helpers of `helpers.py`

A heap entry is `(priority-or-negated-priority, count, item)`; `heappop`
removes the entry that is lexicographically least in `(fst, count)` (the
unique counter means the item component never takes part in a
comparison). -/

/-- Heap entries. -/
abbrev Entry (α : Type) := ℚ × ℕ × α

/-- The key `heapq` compares: the numeric slot, then the counter. -/
def entryLt {α : Type} (e f : Entry α) : Prop :=
  e.1 < f.1 ∨ (e.1 = f.1 ∧ e.2.1 < f.2.1)

instance {α : Type} (e f : Entry α) : Decidable (entryLt e f) := by
  unfold entryLt; infer_instance

/-- `heapq.heappop`: remove and return the least entry (first-least on the
impossible tie); `none` on an empty heap, where Python raises. -/
def popMinE {α : Type} : List (Entry α) → Option (Entry α × List (Entry α))
  | [] => none
  | e :: es =>
    match popMinE es with
    | none => some (e, [])
    | some (m, rest) => if entryLt m e then some (m, e :: rest) else some (e, es)

/-- `PriorityQueue`: an entry list plus the monotone tie-break counter. -/
structure PQueue (α : Type) where
  items : List (Entry α)
  count : ℕ

/-- `PriorityQueue.push`. -/
def pqPush {α : Type} (p : ℚ) (x : α) (q : PQueue α) : PQueue α :=
  ⟨q.items ++ [(p, q.count, x)], q.count + 1⟩

/-- `PriorityQueue.pop` (with the emptiness check the `while pq` loop does
before calling it). -/
def pqPop {α : Type} (q : PQueue α) : Option ((ℚ × α) × PQueue α) :=
  match popMinE q.items with
  | none => none
  | some (e, rest) => some ((e.1, e.2.2), ⟨rest, q.count⟩)

/-- `LimitedSet`: a heap of `(-priority, count, item)` entries plus the set
of live items (a `Nodup` list models the Python `set`). -/
structure LSet (α : Type) where
  pq : List (Entry α)
  count : ℕ
  k : ℕ
  items : List α

/-- A fresh `LimitedSet(k)`. -/
def lsEmpty {α : Type} (k : ℕ) : LSet α := ⟨[], 0, k, []⟩

/-- The lazy cleanup inside `LimitedSet.limit`: pop heap entries whose item
has been discarded until a live one surfaces (fuelled by the heap length,
which bounds the number of pops). -/
def lsCleanGo {α : Type} [DecidableEq α] (its : List α) : ℕ → List (Entry α) → List (Entry α)
  | 0, pq => pq
  | fuel + 1, pq =>
    match popMinE pq with
    | none => pq
    | some (e, rest) => if e.2.2 ∈ its then pq else lsCleanGo its fuel rest

/-- `while self.pq and self.pq[0][2] not in self.items: heappop(self.pq)`. -/
def lsClean {α : Type} [DecidableEq α] (its : List α) (pq : List (Entry α)) : List (Entry α) :=
  lsCleanGo its pq.length pq

/-- `LimitedSet.limit`: `+infinity` (`none`) while fewer than `k` live
items are held, else the negation of the heap top.  Returns the state after
the lazy cleanup, since the Python call mutates the heap. -/
def lsLimit {α : Type} [DecidableEq α] (s : LSet α) : Option ℚ × LSet α :=
  let pq1 := lsClean s.items s.pq
  let s1 : LSet α := { s with pq := pq1 }
  if s.items.length < s.k then (none, s1)
  else
    match popMinE pq1 with
    | some (e, _) => (some (-e.1), s1)
    | none => (none, s1)   -- unreachable: every live item keeps a heap entry

/-- `x <= limit` with `limit` possibly `+infinity`. -/
def leLim (x : ℚ) : Option ℚ → Bool
  | none => true
  | some l => x ≤ l

/-- `LimitedSet.add`: no-op when the priority exceeds the current limit;
otherwise add the item, push `(-priority, count, item)` and, when more than
`k` items are now live, evict the item of the popped (worst) entry. -/
def lsAdd {α : Type} [DecidableEq α] (p : ℚ) (it : α) (s : LSet α) : LSet α :=
  let q := lsLimit s
  let s1 := q.2
  if leLim p q.1 then
    let items1 := if it ∈ s1.items then s1.items else s1.items ++ [it]
    let pq1 := s1.pq ++ [(-p, s1.count, it)]
    if s1.k < items1.length then
      match popMinE pq1 with
      | some (e, rest) => ⟨rest, s1.count + 1, s1.k, items1.erase e.2.2⟩
      | none => ⟨pq1, s1.count + 1, s1.k, items1⟩   -- unreachable: pq1 is nonempty
    else ⟨pq1, s1.count + 1, s1.k, items1⟩
  else s1

/-- `LimitedSet.discard` (`set.discard`: remove when present). -/
def lsDiscard {α : Type} [DecidableEq α] (it : α) (s : LSet α) : LSet α :=
  { s with items := s.items.erase it }

/-- `LimitedSet.__iter__`: the live items in heap-list order. -/
def lsIter {α : Type} [DecidableEq α] (s : LSet α) : List α :=
  (s.pq.filter (fun e => e.2.2 ∈ s.items)).map (fun e => e.2.2)

/-! ### `MTree.knn` of `classes.py` -/

section Knn

variable [DecidableEq V] (d : V → V → ℚ)

/-- The inner `for child_node in node.children` loop of `knn`: each child
is considered only if both triangle-inequality bounds pass the current
`results.limit()` (each test lazily cleans the collector's heap, as the
Python calls do); a surviving router child joins the frontier, and every
survivor is offered to the collector keyed by `max_distance(query)`. -/
def knnChildren (q : V) (node : Node V) :
    List (Node V) → PQueue (Node V) → LSet (Node V) → PQueue (Node V) × LSet (Node V)
  | [], pq, res => (pq, res)
  | c :: cs, pq, res =>
    let l1 := lsLimit res
    if leLim (qabs (d node.router q - d node.router c.router) - c.radius) l1.1 then
      let l2 := lsLimit l1.2
      if leLim (minDistance d c q) l2.1 then
        let pq1 := if c.isParent then pqPush (minDistance d c q) c pq else pq
        let res1 := lsAdd (maxDistance d c q) c l2.2
        knnChildren q node cs pq1 res1
      else knnChildren q node cs pq l2.2
    else knnChildren q node cs pq l1.2

/-- The `while pq` loop of `knn`: pop the frontier node with least
`min_distance`, discard it from the collector, and process its children.
The fuel argument only forces termination; `knn` passes enough fuel for
the loop to drain the frontier (each node enters it at most once). -/
def knnLoop (q : V) : ℕ → PQueue (Node V) → LSet (Node V) → LSet (Node V)
  | 0, _, res => res   -- unreachable with the fuel knn supplies
  | fuel + 1, pq, res =>
    match pqPop pq with
    | none => res
    | some (pe, pq1) =>
      let res1 := lsDiscard pe.2 res
      let st := knnChildren d q pe.2 pe.2.childList pq1 res1
      knnLoop q fuel st.1 st.2

/-- Number of nodes of a subtree: fuel bound for `knnLoop`. -/
def sizeN : Node V → ℕ := fun n => n.subnodes.length

/-- `MTree.knn`: `assert k >= 0` (an `AssertionError` is the `.error`
case), `k == 0` returns `[]`, `k >= len(self)` returns `list(self)`, and
otherwise the best-first branch-and-bound search runs with the root as
frontier seed; the answer lists the routers of the collected nodes. -/
def mtreeKnn (t : MTreeS V) (q : V) (k : ℤ) : Except Unit (List V) :=
  if k < 0 then .error ()
  else if k = 0 then .ok []
  else if (t.length : ℤ) ≤ k then .ok (mtreeValues t)
  else
    match t.root with
    | none => .ok []   -- unreachable: 0 < k < length forces a root
    | some rt =>
      let pq0 := pqPush (minDistance d rt q) rt ⟨[], 0⟩
      let res := knnLoop d q (sizeN rt + 1) pq0 (lsEmpty k.toNat)
      .ok ((lsIter res).map Node.router)

end Knn

/-! ### Specification-level predicates -/

/-- The metric axioms the spec requires of a distance function
(non-negativity follows from these three). -/
structure IsMetric (d : V → V → ℚ) : Prop where
  refl : ∀ x, d x x = 0
  symm : ∀ x y, d x y = d y x
  triangle : ∀ x y z, d x z ≤ d x y + d y z

/-- Level homogeneity: a router's children are uniformly leaves or
uniformly routers. -/
def Homog (cs : List (Node V)) : Prop :=
  (∀ c ∈ cs, c.isParent = false) ∨ (∀ c ∈ cs, c.isParent = true)

/-- Structural well-formedness of a subtree for capacity `cap`: children
lists are nonempty, within capacity and homogeneous. -/
inductive WfN (cap : ℕ) : Node V → Prop
  | value (r : V) : WfN cap (.value r)
  | parent (r : V) (rad : ℚ) (cs : List (Node V)) :
      cs ≠ [] → cs.length ≤ cap → Homog cs → (∀ c ∈ cs, WfN cap c) →
      WfN cap (.parent r rad cs)

/-- The covering invariant: every router's radius bounds the distance from
its router value to every value stored beneath it, hereditarily. -/
inductive Cov (d : V → V → ℚ) : Node V → Prop
  | value (r : V) : Cov d (.value r)
  | parent (r : V) (rad : ℚ) (cs : List (Node V)) :
      (∀ v ∈ valuesL cs, d r v ≤ rad) → (∀ c ∈ cs, Cov d c) →
      Cov d (.parent r rad cs)

/-- Contract of one in-place insertion step: the replacement node(s) are
routers, keep the invariants, and hold the old values plus the new one. -/
def InsOk (d : V → V → ℚ) (cap : ℕ) (v : V) (n : Node V) : InsResult V → Prop
  | .one m =>
      m.isParent = true ∧ WfN cap m ∧ Cov d m ∧ m.values.Perm (n.values ++ [v])
  | .two a b =>
      a.isParent = true ∧ b.isParent = true ∧ WfN cap a ∧ WfN cap b ∧
      Cov d a ∧ Cov d b ∧ (a.values ++ b.values).Perm (n.values ++ [v])

/-- Contract of `add_child` on a router with children `cs`, receiving
`child`. -/
def AddOk (d : V → V → ℚ) (cap : ℕ) (cs : List (Node V)) (child : Node V) :
    InsResult V → Prop
  | .one m =>
      m.isParent = true ∧ WfN cap m ∧ Cov d m ∧
      m.values.Perm (valuesL cs ++ child.values)
  | .two a b =>
      a.isParent = true ∧ b.isParent = true ∧ WfN cap a ∧ WfN cap b ∧
      Cov d a ∧ Cov d b ∧ (a.values ++ b.values).Perm (valuesL cs ++ child.values)

/-- Invariants of a tree root (`()` roots carry none). -/
def rootOk (d : V → V → ℚ) (cap : ℕ) : Option (Node V) → Prop
  | none => True
  | some n => n.isParent = true ∧ WfN cap n ∧ Cov d n

/-! ### The insertion descent of `mtree4.py`, and the spec's wording of the
descent policy (for the refinement comparison of claim C3). -/

/-- `ParentNode.covers` (`classes.py` and `mtree4.py`): for a value
argument, `self.distance(value) <= self.radius`. -/
def coversB (d : V → V → ℚ) (n : Node V) (v : V) : Bool :=
  d n.router v ≤ n.radius

/-- The child selection of `mtree4.py`'s `ParentNode.insert`: nearest
child, replaced by the least-`increase_required` child when the nearest one
does not cover the value. -/
def mtree4Select (d : V → V → ℚ) (cs : List (Node V)) (v : V) : ℕ :=
  let i := pyArgmin (fun x => d x.router v) cs
  match cs.get? i with
  | some c =>
    if coversB d c v then i
    else pyArgmin (fun x => d x.router v - x.radius) cs
  | none => i   -- unreachable: the argmin index is in range

/-- `i` is the first index minimizing `g` over `cs` (Python's
`min(..., key=g)` semantics). -/
def IsFirstMin (g : Node V → ℚ) (cs : List (Node V)) (i : ℕ) : Prop :=
  ∃ h : i < cs.length,
    (∀ j, (hj : j < cs.length) → g (cs.get ⟨i, h⟩) ≤ g (cs.get ⟨j, hj⟩)) ∧
    (∀ j, (hj : j < i) → g (cs.get ⟨i, h⟩) < g (cs.get ⟨j, Nat.lt_trans hj h⟩))

/-- The descent policy as the spec words it: select the child minimizing
`distance(child, value)`; if it covers the value recurse into it, and
otherwise instead select the child minimizing
`distance(child, value) - child.radius`.  First minimizers realize the
spec's "ties are broken arbitrarily (e.g., first minimizer found)". -/
def SpecPolicyChoice (d : V → V → ℚ) (cs : List (Node V)) (v : V) (i : ℕ) : Prop :=
  ∃ j, ∃ hj : j < cs.length,
    IsFirstMin (fun x => d x.router v) cs j ∧
    ((d (cs.get ⟨j, hj⟩).router v ≤ (cs.get ⟨j, hj⟩).radius ∧ i = j) ∨
     (¬d (cs.get ⟨j, hj⟩).router v ≤ (cs.get ⟨j, hj⟩).radius ∧
       IsFirstMin (fun x => d x.router v - x.radius) cs i))

/-! ### Interleavings of `LimitedSet` operations (claim C9) -/

/-- One `LimitedSet` operation. -/
inductive LSOp (α : Type) where
  | add (p : ℚ) (it : α)
  | discard (it : α)

/-- Run one operation. -/
def lsStep {α : Type} [DecidableEq α] (s : LSet α) : LSOp α → LSet α
  | .add p it => lsAdd p it s
  | .discard it => lsDiscard it s

/-- Run a finite interleaving of `add`/`discard` against `LimitedSet(k)`. -/
def lsRun {α : Type} [DecidableEq α] (k : ℕ) (ops : List (LSOp α)) : LSet α :=
  ops.foldl lsStep (lsEmpty k)

/-- The interleavings claim C9 speaks about: every `add` uses the priority
the item is keyed by (an item's priority is intrinsic to it). -/
def OpsPrioritized {α : Type} (f : α → ℚ) (ops : List (LSOp α)) : Prop :=
  ∀ p it, LSOp.add p it ∈ ops → p = f it

/-- Contract of `insertL` (descent into the `i`-th child): updated children
keep the invariants and the count; a sibling produced by a split is
returned separately; the values grow by exactly the inserted one. -/
def InsLOk (d : V → V → ℚ) (cap : ℕ) (v : V) (cs : List (Node V)) :
    List (Node V) × Option (Node V) → Prop
  | (cs2, none) =>
      (∀ c ∈ cs2, c.isParent = true ∧ WfN cap c ∧ Cov d c) ∧
      cs2.length = cs.length ∧ (valuesL cs2).Perm (valuesL cs ++ [v])
  | (cs2, some b) =>
      (∀ c ∈ cs2, c.isParent = true ∧ WfN cap c ∧ Cov d c) ∧
      cs2.length = cs.length ∧ b.isParent = true ∧ WfN cap b ∧ Cov d b ∧
      (valuesL cs2 ++ b.values).Perm (valuesL cs ++ [v])

/-- The absolute difference of two integers, as a rational; written with
`Int.natAbs` so it evaluates in the kernel (see `distAbsZ_eq_abs`). -/
def distAbsZ : ℤ → ℤ → ℚ := fun a b => ((a - b).natAbs : ℚ)

/-- Full invariant of a tree state built from the value list `vs`. -/
def TreeOk (d : V → V → ℚ) (cap : ℕ) (t : MTreeS V) (vs : List V) : Prop :=
  rootOk d cap t.root ∧ t.length = vs.length ∧ (mtreeValues t).Perm vs ∧
  t.node_capacity = cap

mutual
/-- The `ValueNode`s of a subtree, in order. -/
def Node.leafNodes : Node V → List (Node V)
  | .value r => [.value r]
  | .parent _ _ cs => leafNodesL cs

/-- Concatenated leaf nodes of a list of nodes. -/
def leafNodesL : List (Node V) → List (Node V)
  | [] => []
  | c :: cs => c.leafNodes ++ leafNodesL cs
end

/-- The leftmost `ValueNode` beneath a node (the node itself when it is a
leaf); used to pick one stored value witness per live collector item. -/
def firstLeaf : Node V → Node V
  | .value r => .value r
  | .parent r _ [] => .value r   -- unreachable: children are never empty
  | .parent _ _ (c :: _) => firstLeaf c
termination_by n => sizeOf n
decreasing_by
  simp only [Node.parent.sizeOf_spec, List.cons.sizeOf_spec]
  omega

/-- During the search, a stored leaf is accounted for while it is a live
collector item or lies beneath a frontier node or a pending child. -/
def NotLost (items fns pend : List (Node V)) (z : Node V) : Prop :=
  z ∈ items ∨ (∃ x ∈ fns, z ∈ x.leafNodes) ∨ ∃ x ∈ pend, z ∈ x.leafNodes

/-- The nodes of a collection have pairwise disjoint value sets (two
members sharing a stored value are the same node). -/
def OverlapEq (l : List (Node V)) : Prop :=
  ∀ a ∈ l, ∀ b ∈ l, (∃ z, z ∈ a.values ∧ z ∈ b.values) → a = b

/-- A lost leaf `y` is justified when `k` distinct accounted-for leaves of
the tree sit no farther from the query than `y` does. -/
def JustSet (d : V → V → ℚ) (q : V) (kk : ℕ) (rt : Node V)
    (items fns pend : List (Node V)) (y : Node V) : Prop :=
  ∃ S : List (Node V), S.Nodup ∧ S.length = kk ∧
    ∀ z ∈ S, z ∈ rt.leafNodes ∧ NotLost items fns pend z ∧
      d q z.router ≤ d q y.router

/-- The frontier node list of a priority queue state. -/
def pqNodes (pq : PQueue (Node V)) : List (Node V) :=
  pq.items.map (fun e => e.2.2)

/-- Well-formedness of a `LimitedSet` state under the intrinsic priority
assignment `f`: live items are distinct and no more than `k`, every live
item keeps a heap entry, entries carry the negated intrinsic priority of
their item, and the monotone counter keeps all entry counts distinct. -/
def LSWf {α : Type} (f : α → ℚ) (k : ℕ) (s : LSet α) : Prop :=
  s.items.Nodup ∧
  (∀ it ∈ s.items, ∃ e ∈ s.pq, e.2.2 = it) ∧
  (∀ e ∈ s.pq, e.1 = -(f e.2.2)) ∧
  s.items.length ≤ s.k ∧
  (∀ e ∈ s.pq, e.2.1 < s.count) ∧
  List.Pairwise (fun e1 e2 => e1.2.1 ≠ e2.2.1) s.pq ∧
  s.k = k

/-- Invariant of the best-first `knn` search loop over the fixed tree root
`rt` with query `q` and result bound `kk`; `pend` lists the children of the
popped node not yet run through the inner loop. -/
structure KInv (d : V → V → ℚ) (q : V) (kk : ℕ) (rt : Node V)
    (pq : PQueue (Node V)) (res : LSet (Node V)) (pend : List (Node V)) : Prop where
  lswf : LSWf (fun n => maxDistance d n q) kk res
  fr_mem : ∀ x ∈ pqNodes pq, x ∈ rt.subnodes ∧ x.isParent = true
  fr_nodup : (pqNodes pq).Nodup
  it_mem : ∀ x ∈ res.items, x ∈ rt.subnodes
  pend_mem : ∀ x ∈ pend, x ∈ rt.subnodes
  par_fr : ∀ x ∈ res.items, x.isParent = true → x ∈ pqNodes pq
  ovl : OverlapEq (res.items ++ pqNodes pq ++ pend)
  pend_fresh : ∀ c ∈ pend, c ∉ res.items ∧ c ∉ pqNodes pq
  pend_nodup : pend.Nodup
  stale_pend : ∀ e ∈ res.pq, ∀ x ∈ pend, e.2.2 ∉ x.subnodes
  stale_fr : ∀ e ∈ res.pq, ∀ x ∈ pqNodes pq, ∀ c ∈ x.childList, e.2.2 ∉ c.subnodes
  res_nodup : (res.pq.map (fun e => e.2.2)).Nodup
  just : ∀ y ∈ rt.leafNodes, ¬ NotLost res.items (pqNodes pq) pend y →
    JustSet d q kk rt res.items (pqNodes pq) pend y

/-- Fuel measure of the search: total node count referenced from the
frontier and the pending children. -/
def knnMeasure (pq : PQueue (Node V)) (pend : List (Node V)) : ℕ :=
  ((pqNodes pq).map sizeN).sum + (pend.map sizeN).sum

/-- Concrete router children exhibiting the descent-policy divergence
between `classes.py` and `mtree4.py`: for the value `4`, the nearest child
is the first one (distance 4 vs 6), it does not cover `4`, and the child of
least required radius increase is the second one (4 - 0 vs 6 - 5). -/
def csPolicy : List (Node ℤ) :=
  [Node.parent 0 0 [Node.value 0], Node.parent 10 5 [Node.value 10]]

end MT

/-! ## Theorems -/

namespace MT

variable {V : Type}

theorem qmax_eq_max (a b : ℚ) : qmax a b = max a b := by
  unfold qmax
  rcases le_total a b with h | h
  · rw [if_pos h, max_eq_right h]
  · rcases eq_or_lt_of_le h with rfl | h2
    · simp
    · rw [if_neg (not_le.mpr h2), max_eq_left h]

theorem qabs_eq_abs (a : ℚ) : qabs a = |a| := by
  unfold qabs
  rcases lt_or_le a 0 with h | h
  · rw [if_pos h, abs_of_neg h]
  · rw [if_neg (not_lt.mpr h), abs_of_nonneg h]

theorem distAbsZ_eq_abs (a b : ℤ) : distAbsZ a b = |(a : ℚ) - b| := by
  unfold distAbsZ
  rw [show ((a : ℚ) - b) = ((a - b : ℤ) : ℚ) by push_cast; ring]
  rw [← Int.cast_natCast, Int.natCast_natAbs, Int.cast_abs]

theorem IsMetric.nonneg {d : V → V → ℚ} (hm : IsMetric d) (x y : V) : 0 ≤ d x y := by
  have h := hm.triangle x y x
  rw [hm.refl x, hm.symm y x] at h
  linarith

theorem isMetric_distAbsZ : IsMetric distAbsZ := by
  constructor
  · intro x
    simp [distAbsZ_eq_abs]
  · intro x y
    rw [distAbsZ_eq_abs, distAbsZ_eq_abs, abs_sub_comm]
  · intro x y z
    rw [distAbsZ_eq_abs, distAbsZ_eq_abs, distAbsZ_eq_abs]
    exact abs_sub_le _ _ _

theorem valuesL_append (l1 l2 : List (Node V)) :
    valuesL (l1 ++ l2) = valuesL l1 ++ valuesL l2 := by
  induction l1 with
  | nil => simp [valuesL]
  | cons c cs ih => simp [valuesL, ih]

theorem mem_valuesL {z : V} {cs : List (Node V)} :
    z ∈ valuesL cs ↔ ∃ c ∈ cs, z ∈ c.values := by
  induction cs with
  | nil => simp [valuesL]
  | cons c cs ih =>
    simp only [valuesL, List.mem_append, ih, List.mem_cons]
    constructor
    · rintro (h | ⟨c2, h1, h2⟩)
      · exact ⟨c, Or.inl rfl, h⟩
      · exact ⟨c2, Or.inr h1, h2⟩
    · rintro ⟨c2, h1 | h1, h2⟩
      · subst h1; exact Or.inl h2
      · exact Or.inr ⟨c2, h1, h2⟩

theorem values_ne_nil {cap : ℕ} {n : Node V} (hwf : WfN cap n) : n.values ≠ [] := by
  induction hwf with
  | value r => simp [Node.values]
  | parent r rad cs hne hlen hhom hwf ih =>
    simp only [Node.values]
    match cs, hne with
    | c :: cs2, _ =>
      have hc := ih c (by simp)
      simp only [valuesL]
      intro hcon
      rcases List.append_eq_nil.mp hcon with ⟨h1, _⟩
      exact hc h1

theorem cov_values {d : V → V → ℚ} (hm : IsMetric d) {n : Node V} (hcov : Cov d n) :
    ∀ z ∈ n.values, d n.router z ≤ n.radius := by
  cases hcov with
  | value r =>
    intro z hz
    simp only [Node.values, List.mem_singleton] at hz
    subst hz
    simp [Node.router, Node.radius, hm.refl]
  | parent r rad cs hcv hcs =>
    intro z hz
    exact hcv z hz

mutual
theorem containsV_iff [DecidableEq V] (v : V) :
    (n : Node V) → (Node.containsV v n = true ↔ v ∈ n.values)
  | .value r => by
    simp [Node.containsV, Node.values, decide_eq_true_eq]
  | .parent r rad cs => by
    simp only [Node.containsV, Node.values]
    exact containsL_iff v cs

theorem containsL_iff [DecidableEq V] (v : V) :
    (cs : List (Node V)) → (containsL v cs = true ↔ v ∈ valuesL cs)
  | [] => by simp [containsL, valuesL]
  | c :: cs => by
    simp only [containsL, valuesL, Bool.or_eq_true, List.mem_append]
    rw [containsV_iff v c, containsL_iff v cs]
end

theorem mem_subnodesL {m : Node V} {cs : List (Node V)} :
    m ∈ subnodesL cs ↔ ∃ c ∈ cs, m ∈ c.subnodes := by
  induction cs with
  | nil => simp [subnodesL]
  | cons c cs ih =>
    simp only [subnodesL, List.mem_append, ih, List.mem_cons]
    constructor
    · rintro (h | ⟨c2, h1, h2⟩)
      · exact ⟨c, Or.inl rfl, h⟩
      · exact ⟨c2, Or.inr h1, h2⟩
    · rintro ⟨c2, h1 | h1, h2⟩
      · subst h1; exact Or.inl h2
      · exact Or.inr ⟨c2, h1, h2⟩

theorem self_mem_subnodes : (n : Node V) → n ∈ n.subnodes
  | .value r => by simp [Node.subnodes]
  | .parent r rad cs => by simp [Node.subnodes]

theorem cov_of_mem_subnodes {d : V → V → ℚ} {n : Node V} (hcov : Cov d n) :
    ∀ m ∈ n.subnodes, Cov d m := by
  induction hcov with
  | value r =>
    intro m hm2
    simp only [Node.subnodes, List.mem_singleton] at hm2
    subst hm2
    exact Cov.value r
  | parent r rad cs hcv hcs ih =>
    intro m hm2
    simp only [Node.subnodes, List.mem_cons] at hm2
    rcases hm2 with rfl | hm2
    · exact Cov.parent r rad cs hcv hcs
    · rcases mem_subnodesL.mp hm2 with ⟨c, hc, hmc⟩
      exact ih c hc m hmc

theorem wfn_of_mem_subnodes {cap : ℕ} {n : Node V} (hwf : WfN cap n) :
    ∀ m ∈ n.subnodes, WfN cap m := by
  induction hwf with
  | value r =>
    intro m hm2
    simp only [Node.subnodes, List.mem_singleton] at hm2
    subst hm2
    exact WfN.value r
  | parent r rad cs hne hlen hhom hwf ih =>
    intro m hm2
    simp only [Node.subnodes, List.mem_cons] at hm2
    rcases hm2 with rfl | hm2
    · exact WfN.parent r rad cs hne hlen hhom hwf
    · rcases mem_subnodesL.mp hm2 with ⟨c, hc, hmc⟩
      exact ih c hc m hmc

mutual
theorem values_subset_of_mem_subnodes :
    (n : Node V) → ∀ m ∈ n.subnodes, ∀ z ∈ m.values, z ∈ n.values
  | .value r => by
    intro m hm2 z hz
    simp only [Node.subnodes, List.mem_singleton] at hm2
    subst hm2
    exact hz
  | .parent r rad cs => by
    intro m hm2 z hz
    simp only [Node.subnodes, List.mem_cons] at hm2
    rcases hm2 with rfl | hm2
    · exact hz
    · rcases mem_subnodesL.mp hm2 with ⟨c, hc, hmc⟩
      have hzc := valuesL_subset_of_mem_subnodes cs c hc m hmc z hz
      simpa [Node.values] using hzc

theorem valuesL_subset_of_mem_subnodes :
    (cs : List (Node V)) → ∀ c ∈ cs, ∀ m ∈ c.subnodes, ∀ z ∈ m.values, z ∈ valuesL cs
  | [] => by intro c hc; simp at hc
  | c0 :: cs => by
    intro c hc m hm2 z hz
    simp only [List.mem_cons] at hc
    simp only [valuesL, List.mem_append]
    rcases hc with rfl | hc
    · exact Or.inl (values_subset_of_mem_subnodes c m hm2 z hz)
    · exact Or.inr (valuesL_subset_of_mem_subnodes cs c hc m hm2 z hz)
end

theorem router_value (r : V) : (Node.value r).router = r := rfl

theorem radius_value (r : V) : (Node.value r).radius = 0 := rfl

theorem le_qmax_left (a b : ℚ) : a ≤ qmax a b := by
  rw [qmax_eq_max]; exact le_max_left a b

theorem le_qmax_right (a b : ℚ) : b ≤ qmax a b := by
  rw [qmax_eq_max]; exact le_max_right a b

theorem foldl_qmax_ge_init (f : Node V → ℚ) :
    ∀ (l : List (Node V)) (init : ℚ), init ≤ l.foldl (fun m x => qmax m (f x)) init := by
  intro l
  induction l with
  | nil => intro init; simp
  | cons x xs ih =>
    intro init
    calc init ≤ qmax init (f x) := le_qmax_left _ _
    _ ≤ _ := ih (qmax init (f x))

theorem foldl_qmax_ge_mem (f : Node V → ℚ) :
    ∀ (l : List (Node V)) (init : ℚ), ∀ x ∈ l, f x ≤ l.foldl (fun m y => qmax m (f y)) init := by
  intro l
  induction l with
  | nil => intro init x hx; simp at hx
  | cons y ys ih =>
    intro init x hx
    rcases List.mem_cons.mp hx with rfl | hx
    · calc f x ≤ qmax init (f x) := le_qmax_right _ _
      _ ≤ _ := foldl_qmax_ge_init f ys (qmax init (f x))
    · exact ih (qmax init (f y)) x hx

theorem coverRadius_ge (d : V → V → ℚ) (r : V) (c : Node V) (cs : List (Node V)) :
    ∀ x ∈ c :: cs, nodeDist d (.value r) x ≤ coverRadius d r c cs := by
  intro x hx
  rcases List.mem_cons.mp hx with rfl | hx
  · exact foldl_qmax_ge_init _ cs _
  · exact foldl_qmax_ge_mem _ cs _ x hx

theorem mkParent_cov {d : V → V → ℚ} (hm : IsMetric d) {c : Node V} {cs : List (Node V)}
    (hall : ∀ x ∈ c :: cs, Cov d x) : Cov d (mkParent d c cs) := by
  unfold mkParent
  refine Cov.parent _ _ _ ?_ (fun x hx => hall x hx)
  intro z hz
  rcases mem_valuesL.mp hz with ⟨x, hx, hzx⟩
  have h1 : d c.router z ≤ d c.router x.router + d x.router z := hm.triangle _ _ _
  have h2 : d x.router z ≤ x.radius := cov_values hm (hall x hx) z hzx
  have h3 : nodeDist d (.value c.router) x ≤ coverRadius d c.router c cs :=
    coverRadius_ge d c.router c cs x hx
  simp only [nodeDist, router_value] at h3
  linarith

theorem homog_of_sub {cs cs2 : List (Node V)} (hhom : Homog cs) (hsub : ∀ c ∈ cs2, c ∈ cs) :
    Homog cs2 := by
  rcases hhom with h | h
  · exact Or.inl (fun c hc => h c (hsub c hc))
  · exact Or.inr (fun c hc => h c (hsub c hc))

theorem mkParent_wf {cap : ℕ} {c : Node V} {cs : List (Node V)} {d : V → V → ℚ}
    (hlen : (c :: cs).length ≤ cap) (hhom : Homog (c :: cs))
    (hall : ∀ x ∈ c :: cs, WfN cap x) : WfN cap (mkParent d c cs) := by
  unfold mkParent
  exact WfN.parent _ _ _ (by simp) hlen hhom hall

theorem mkParent_values (d : V → V → ℚ) (c : Node V) (cs : List (Node V)) :
    (mkParent d c cs).values = c.values ++ valuesL cs := by
  simp [mkParent, Node.values, valuesL]

theorem mkParent_isParent (d : V → V → ℚ) (c : Node V) (cs : List (Node V)) :
    (mkParent d c cs).isParent = true := by
  simp [mkParent, Node.isParent]

theorem partitionAB_mem {d : V → V → ℚ} {a b : Node V} :
    ∀ {l : List (Node V)} {x : Node V},
      (x ∈ (partitionAB d a b l).1 → x ∈ l) ∧ (x ∈ (partitionAB d a b l).2 → x ∈ l) := by
  intro l
  induction l with
  | nil => intro x; simp [partitionAB]
  | cons y ys ih =>
    intro x
    simp only [partitionAB]
    constructor
    · intro hx
      by_cases hc : nodeDist d a y < nodeDist d b y
      · simp only [if_pos hc, List.mem_cons] at hx
        rcases hx with rfl | hx
        · exact List.mem_cons_self _ _
        · exact List.mem_cons_of_mem _ (ih.1 hx)
      · simp only [if_neg hc] at hx
        exact List.mem_cons_of_mem _ (ih.1 hx)
    · intro hx
      by_cases hc : nodeDist d a y < nodeDist d b y
      · simp only [if_pos hc] at hx
        exact List.mem_cons_of_mem _ (ih.2 hx)
      · simp only [if_neg hc, List.mem_cons] at hx
        rcases hx with rfl | hx
        · exact List.mem_cons_self _ _
        · exact List.mem_cons_of_mem _ (ih.2 hx)

theorem partitionAB_length {d : V → V → ℚ} {a b : Node V} :
    ∀ l : List (Node V),
      (partitionAB d a b l).1.length + (partitionAB d a b l).2.length = l.length := by
  intro l
  induction l with
  | nil => simp [partitionAB]
  | cons y ys ih =>
    simp only [partitionAB]
    by_cases hc : nodeDist d a y < nodeDist d b y
    · simp only [if_pos hc, List.length_cons]
      omega
    · simp only [if_neg hc, List.length_cons]
      omega

theorem partitionAB_values {d : V → V → ℚ} {a b : Node V} :
    ∀ l : List (Node V),
      (valuesL (partitionAB d a b l).1 ++ valuesL (partitionAB d a b l).2).Perm (valuesL l) := by
  intro l
  induction l with
  | nil => simp [partitionAB, valuesL]
  | cons y ys ih =>
    simp only [partitionAB]
    by_cases hc : nodeDist d a y < nodeDist d b y
    · simp only [if_pos hc, valuesL]
      rw [List.append_assoc]
      exact ih.append_left y.values
    · simp only [if_neg hc, valuesL]
      refine List.Perm.trans ?_ (ih.append_left y.values)
      rw [← List.append_assoc]
      refine List.Perm.trans ((List.perm_append_comm).append_right _) ?_
      rw [List.append_assoc]

/-- Any rearrangement of appended blocks is a permutation (via the
multiset picture). -/
theorem perm_pairs {α : Type} (A B X Y : List α) :
    ((A ++ X) ++ (B ++ Y)).Perm ((A ++ B) ++ (X ++ Y)) := by
  rw [← Multiset.coe_eq_coe]
  simp only [← Multiset.coe_add]
  abel

theorem addChildF_ok {d : V → V → ℚ} {cap : ℕ} (hm : IsMetric d) (hcap : 2 ≤ cap)
    (r : V) (rad : ℚ) (cs : List (Node V)) (child : Node V)
    (hne : cs ≠ []) (hlen : cs.length ≤ cap) (hhom : Homog (cs ++ [child]))
    (hwf : ∀ c ∈ cs, WfN cap c) (hcov : ∀ c ∈ cs, Cov d c)
    (hcovr : ∀ z ∈ valuesL cs, d r z ≤ rad)
    (hwfc : WfN cap child) (hcovc : Cov d child) :
    AddOk d cap cs child (addChildF d cap r rad cs child) := by
  unfold addChildF
  by_cases hfull : cap ≤ cs.length
  · -- split: `cs` is at capacity, so it has at least two members
    rw [if_pos hfull]
    have hcl : cs.length = cap := le_antisymm hlen hfull
    match cs, hne with
    | [c1], _ => simp at hcl; omega
    | c1 :: c2 :: rest, _ =>
      simp only [List.cons_append]
      have hmemc : ∀ x, x ∈ (c1 :: c2 :: rest) ++ [child] → WfN cap x ∧ Cov d x := by
        intro x hx
        rcases List.mem_append.mp hx with hx | hx
        · exact ⟨hwf x hx, hcov x hx⟩
        · simp only [List.mem_singleton] at hx
          subst hx
          exact ⟨hwfc, hcovc⟩
      set p := partitionAB d c1 c2 (rest ++ [child]) with hp
      have hsub1 : ∀ x ∈ c1 :: p.1, x ∈ (c1 :: c2 :: rest) ++ [child] := by
        intro x hx
        rcases List.mem_cons.mp hx with rfl | hx
        · simp
        · have := (partitionAB_mem (d := d) (a := c1) (b := c2) (l := rest ++ [child]) (x := x)).1 hx
          rcases List.mem_append.mp this with h | h
          · simp [h]
          · simp only [List.mem_singleton] at h
            subst h
            simp
      have hsub2 : ∀ x ∈ c2 :: p.2, x ∈ (c1 :: c2 :: rest) ++ [child] := by
        intro x hx
        rcases List.mem_cons.mp hx with rfl | hx
        · simp
        · have := (partitionAB_mem (d := d) (a := c1) (b := c2) (l := rest ++ [child]) (x := x)).2 hx
          rcases List.mem_append.mp this with h | h
          · simp [h]
          · simp only [List.mem_singleton] at h
            subst h
            simp
      have hlensum := partitionAB_length (d := d) (a := c1) (b := c2) (rest ++ [child])
      rw [← hp] at hlensum
      have hrestlen : (rest ++ [child]).length = cap - 1 := by
        simp only [List.length_cons] at hcl
        simp [List.length_append]
        omega
      constructor
      · exact mkParent_isParent d c1 p.1
      constructor
      · exact mkParent_isParent d c2 p.2
      constructor
      · refine mkParent_wf ?_ (homog_of_sub hhom hsub1) (fun x hx => (hmemc x (hsub1 x hx)).1)
        simp only [List.length_cons]
        omega
      constructor
      · refine mkParent_wf ?_ (homog_of_sub hhom hsub2) (fun x hx => (hmemc x (hsub2 x hx)).1)
        simp only [List.length_cons]
        omega
      constructor
      · exact mkParent_cov hm (fun x hx => (hmemc x (hsub1 x hx)).2)
      constructor
      · exact mkParent_cov hm (fun x hx => (hmemc x (hsub2 x hx)).2)
      · -- value permutation: both sides hold the candidate values
        rw [mkParent_values, mkParent_values]
        have hperm := partitionAB_values (d := d) (a := c1) (b := c2) (rest ++ [child])
        rw [← hp] at hperm
        refine List.Perm.trans (perm_pairs c1.values c2.values (valuesL p.1) (valuesL p.2)) ?_
        refine List.Perm.trans ((hperm).append_left (c1.values ++ c2.values)) ?_
        simp only [valuesL_append, valuesL, List.append_nil]
        rw [← Multiset.coe_eq_coe]
        simp only [← Multiset.coe_add]
        abel
  · -- room left: plain append, radius grown by the child's node distance
    rw [if_neg hfull]
    refine ⟨by simp [Node.isParent], ?_, ?_, ?_⟩
    · refine WfN.parent _ _ _ (by simp) (by simp [List.length_append]; omega) hhom ?_
      intro c hc
      rcases List.mem_append.mp hc with hc | hc
      · exact hwf c hc
      · simp only [List.mem_singleton] at hc
        subst hc
        exact hwfc
    · refine Cov.parent _ _ _ ?_ ?_
      · intro z hz
        rw [valuesL_append] at hz
        rcases List.mem_append.mp hz with hz | hz
        · calc d r z ≤ rad := hcovr z hz
          _ ≤ qmax rad (nodeDist d (.value r) child) := le_qmax_left _ _
        · simp only [valuesL, List.append_nil] at hz
          have h1 : d r z ≤ d r child.router + d child.router z := hm.triangle _ _ _
          have h2 : d child.router z ≤ child.radius := cov_values hm hcovc z hz
          have h3 : nodeDist d (.value r) child ≤ qmax rad (nodeDist d (.value r) child) :=
            le_qmax_right _ _
          simp only [nodeDist, router_value] at h3 ⊢
          linarith
      · intro c hc
        rcases List.mem_append.mp hc with hc | hc
        · exact hcov c hc
        · simp only [List.mem_singleton] at hc
          subst hc
          exact hcovc
    · simp only [Node.values, valuesL_append, valuesL, List.append_nil]
      exact List.Perm.refl _

theorem pyArgminGo_spec (g : Node V → ℚ) :
    ∀ (xs cs : List (Node V)) (ci bi : ℕ) (bv : ℚ),
      cs.drop ci = xs → ci ≤ cs.length → bi < ci →
      (∀ h : bi < cs.length, g (cs.get ⟨bi, h⟩) = bv) →
      (∀ j, (hj : j < cs.length) → j < ci → bv ≤ g (cs.get ⟨j, hj⟩)) →
      (∀ j, (hj : j < cs.length) → j < bi → bv < g (cs.get ⟨j, hj⟩)) →
      IsFirstMin g cs (pyArgminGo g xs ci bi bv) := by
  intro xs
  induction xs with
  | nil =>
    intro cs ci bi bv hdrop hle hbi hbv h3 h4
    have hlen : cs.length ≤ ci := List.drop_eq_nil_iff.mp hdrop
    have hci : ci = cs.length := le_antisymm hle hlen
    subst hci
    simp only [pyArgminGo]
    refine ⟨hbi, ?_, ?_⟩
    · intro j hj
      rw [hbv hbi]
      exact h3 j hj hj
    · intro j hj
      rw [hbv hbi]
      exact h4 j _ hj
  | cons x xs ih =>
    intro cs ci bi bv hdrop hle hbi hbv h3 h4
    have hcil : ci < cs.length := by
      by_contra hcon
      rw [List.drop_eq_nil_iff.mpr (le_of_not_lt hcon)] at hdrop
      exact List.cons_ne_nil x xs hdrop.symm
    have hx : cs[ci] = x := by
      have := List.getElem_cons_drop cs ci hcil
      rw [hdrop] at this
      exact (List.cons_eq_cons.mp this.symm).1.symm
    have hxs : cs.drop (ci + 1) = xs := by
      have := List.getElem_cons_drop cs ci hcil
      rw [hdrop] at this
      exact (List.cons_eq_cons.mp this.symm).2.symm
    simp only [pyArgminGo]
    by_cases hlt : g x < bv
    · rw [if_pos hlt]
      refine ih cs (ci + 1) ci (g x) hxs hcil (Nat.lt_succ_self ci) ?_ ?_ ?_
      · intro h
        rw [List.get_eq_getElem, hx]
      · intro j hj hjci
        rcases Nat.lt_succ_iff_lt_or_eq.mp hjci with hjci | rfl
        · have := h3 j hj hjci
          rw [List.get_eq_getElem]
          rw [List.get_eq_getElem] at this
          linarith
        · rw [List.get_eq_getElem, hx]
      · intro j hj hjci
        have := h3 j hj hjci
        rw [List.get_eq_getElem]
        rw [List.get_eq_getElem] at this
        linarith
    · rw [if_neg hlt]
      push_neg at hlt
      refine ih cs (ci + 1) bi bv hxs hcil (Nat.lt_succ_of_lt hbi) hbv ?_ h4
      intro j hj hjci
      rcases Nat.lt_succ_iff_lt_or_eq.mp hjci with hjci | rfl
      · exact h3 j hj hjci
      · rw [List.get_eq_getElem, hx]
        exact hlt

/-- `min(children, key=g)` really picks the first minimizer. -/
theorem pyArgmin_spec (g : Node V → ℚ) (cs : List (Node V)) (hne : cs ≠ []) :
    IsFirstMin g cs (pyArgmin g cs) := by
  match cs, hne with
  | c :: cs2, _ =>
    simp only [pyArgmin]
    refine pyArgminGo_spec g cs2 (c :: cs2) 1 0 (g c) rfl ?_ Nat.zero_lt_one ?_ ?_ ?_
    · simp
    · intro h
      rw [List.get_eq_getElem]
      simp
    · intro j hj hj1
      interval_cases j
      rw [List.get_eq_getElem]
      simp
    · intro j hj hj0
      omega

theorem pyArgmin_lt_length (g : Node V → ℚ) (cs : List (Node V)) (hne : cs ≠ []) :
    pyArgmin g cs < cs.length := by
  rcases pyArgmin_spec g cs hne with ⟨h, _⟩
  exact h

theorem sizeOf_child_le {r : V} {rad : ℚ} {cs : List (Node V)} {x : Node V} (hx : x ∈ cs)
    (N : ℕ) (hs : sizeOf (Node.parent r rad cs) ≤ N + 1) : sizeOf x ≤ N := by
  have h1 := List.sizeOf_lt_of_mem hx
  simp only [Node.parent.sizeOf_spec] at hs
  omega

theorem insertL_ok {d : V → V → ℚ} {cap : ℕ} (v : V) :
    ∀ (cs : List (Node V)) (i : ℕ), i < cs.length →
      (∀ c ∈ cs, c.isParent = true ∧ WfN cap c ∧ Cov d c ∧
        InsOk d cap v c (c.insertT d cap v)) →
      InsLOk d cap v cs (insertL d cap v i cs) := by
  intro cs
  induction cs with
  | nil => intro i hi; simp at hi
  | cons c cs ih =>
    intro i hi hall
    cases i with
    | zero =>
      have hc := hall c (List.mem_cons_self c cs)
      rcases hc with ⟨hpar, hwf, hcov, hok⟩
      simp only [insertL]
      rcases hres : c.insertT d cap v with m | ⟨a, b⟩
      · dsimp only
        rw [hres] at hok
        simp only [InsOk] at hok
        rcases hok with ⟨hp1, hp2, hp3, hp4⟩
        simp only [InsLOk]
        refine ⟨?_, by simp, ?_⟩
        · intro x hx
          rcases List.mem_cons.mp hx with rfl | hx
          · exact ⟨hp1, hp2, hp3⟩
          · rcases hall x (List.mem_cons_of_mem c hx) with ⟨h1, h2, h3, _⟩
            exact ⟨h1, h2, h3⟩
        · simp only [valuesL]
          refine List.Perm.trans (hp4.append_right (valuesL cs)) ?_
          rw [← Multiset.coe_eq_coe]
          simp only [← Multiset.coe_add]
          abel
      · dsimp only
        rw [hres] at hok
        simp only [InsOk] at hok
        rcases hok with ⟨ha1, hb1, ha2, hb2, ha3, hb3, hperm⟩
        simp only [InsLOk]
        refine ⟨?_, by simp, hb1, hb2, hb3, ?_⟩
        · intro x hx
          rcases List.mem_cons.mp hx with rfl | hx
          · exact ⟨ha1, ha2, ha3⟩
          · rcases hall x (List.mem_cons_of_mem c hx) with ⟨h1, h2, h3, _⟩
            exact ⟨h1, h2, h3⟩
        · simp only [valuesL]
          have step1 : ((a.values ++ valuesL cs) ++ b.values).Perm
              ((a.values ++ b.values) ++ valuesL cs) := by
            rw [← Multiset.coe_eq_coe]
            simp only [← Multiset.coe_add]
            abel
          refine step1.trans ((hperm.append_right (valuesL cs)).trans ?_)
          rw [← Multiset.coe_eq_coe]
          simp only [← Multiset.coe_add]
          abel
    | succ i =>
      simp only [insertL]
      have hi2 : i < cs.length := by
        simp only [List.length_cons] at hi
        omega
      have hall2 : ∀ x ∈ cs, x.isParent = true ∧ WfN cap x ∧ Cov d x ∧
          InsOk d cap v x (x.insertT d cap v) :=
        fun x hx => hall x (List.mem_cons_of_mem c hx)
      have hrec := ih i hi2 hall2
      rcases hp : insertL d cap v i cs with ⟨cs2, bopt⟩
      rw [hp] at hrec
      dsimp only
      rcases bopt with _ | b
      · simp only [InsLOk] at hrec ⊢
        rcases hrec with ⟨h1, h2, h3⟩
        refine ⟨?_, by simp [h2], ?_⟩
        · intro x hx
          rcases List.mem_cons.mp hx with rfl | hx
          · rcases hall x (List.mem_cons_self x cs) with ⟨g1, g2, g3, _⟩
            exact ⟨g1, g2, g3⟩
          · exact h1 x hx
        · simp only [valuesL]
          refine List.Perm.trans (h3.append_left c.values) ?_
          rw [← Multiset.coe_eq_coe]
          simp only [← Multiset.coe_add]
          abel
      · simp only [InsLOk] at hrec ⊢
        rcases hrec with ⟨h1, h2, hb1, hb2, hb3, h3⟩
        refine ⟨?_, by simp [h2], hb1, hb2, hb3, ?_⟩
        · intro x hx
          rcases List.mem_cons.mp hx with rfl | hx
          · rcases hall x (List.mem_cons_self x cs) with ⟨g1, g2, g3, _⟩
            exact ⟨g1, g2, g3⟩
          · exact h1 x hx
        · simp only [valuesL]
          have step1 : ((c.values ++ valuesL cs2) ++ b.values).Perm
              (c.values ++ (valuesL cs2 ++ b.values)) := by
            rw [List.append_assoc]
          refine step1.trans ((h3.append_left c.values).trans ?_)
          rw [← Multiset.coe_eq_coe]
          simp only [← Multiset.coe_add]
          abel

theorem insertT_ok {d : V → V → ℚ} {cap : ℕ} (hm : IsMetric d) (hcap : 2 ≤ cap) (v : V) :
    ∀ (N : ℕ) (n : Node V), sizeOf n ≤ N → WfN cap n → Cov d n → n.isParent = true →
      InsOk d cap v n (n.insertT d cap v) := by
  intro N
  induction N with
  | zero =>
    intro n hs _ _ _
    exfalso
    cases n with
    | value r => simp only [Node.value.sizeOf_spec] at hs; omega
    | parent r rad cs => simp only [Node.parent.sizeOf_spec] at hs; omega
  | succ N IHN =>
    intro n hs hwf hcov hpar
    cases n with
    | value r => simp [Node.isParent] at hpar
    | parent r rad cs =>
      rcases hwf with _ | ⟨_, _, _, hne, hlen, hhom, hwfc⟩
      rcases hcov with _ | ⟨_, _, _, hcv, hcovc⟩
      match cs, hne, hlen, hhom, hwfc, hcv, hcovc, hs with
      | .value w :: cs', _, hlen, hhom, hwfc, hcv, hcovc, hs =>
        -- leaf-level router: wrap the value and add_child it
        simp only [Node.insertT]
        have hhomv : Homog ((Node.value w :: cs') ++ [Node.value v]) := by
          rcases hhom with h | h
          · refine Or.inl ?_
            intro x hx
            rcases List.mem_append.mp hx with hx | hx
            · exact h x hx
            · simp only [List.mem_singleton] at hx
              subst hx
              simp [Node.isParent]
          · exact absurd (h (Node.value w) (List.mem_cons_self _ _)) (by simp [Node.isParent])
        have haddok := addChildF_ok hm hcap r rad (Node.value w :: cs') (Node.value v)
          (by simp) hlen hhomv hwfc hcovc hcv (WfN.value v) (Cov.value v)
        rcases hres : addChildF d cap r rad (Node.value w :: cs') (Node.value v) with m | ⟨a, b⟩
        · rw [hres] at haddok
          simp only [AddOk] at haddok
          simp only [InsOk, Node.values]
          rcases haddok with ⟨h1, h2, h3, h4⟩
          refine ⟨h1, h2, h3, ?_⟩
          simpa [Node.values, valuesL] using h4
        · rw [hres] at haddok
          simp only [AddOk] at haddok
          simp only [InsOk, Node.values]
          rcases haddok with ⟨h1, h2, h3, h4, h5, h6, h7⟩
          refine ⟨h1, h2, h3, h4, h5, h6, ?_⟩
          simpa [Node.values, valuesL] using h7
      | .parent cr crad ccs :: cs', _, hlen, hhom, hwfc, hcv, hcovc, hs =>
        -- router-level: grow the radius, recurse into the nearest child
        simp only [Node.insertT]
        have hallpar : ∀ c ∈ Node.parent cr crad ccs :: cs', c.isParent = true := by
          rcases hhom with h | h
          · exact absurd (h (Node.parent cr crad ccs) (List.mem_cons_self _ _))
              (by simp [Node.isParent])
          · exact h
        have hi := pyArgmin_lt_length (fun x => d x.router v)
          (Node.parent cr crad ccs :: cs') (by simp)
        have hall : ∀ c ∈ Node.parent cr crad ccs :: cs',
            c.isParent = true ∧ WfN cap c ∧ Cov d c ∧
            InsOk d cap v c (c.insertT d cap v) := by
          intro c hc
          refine ⟨hallpar c hc, hwfc c hc, hcovc c hc, ?_⟩
          exact IHN c (sizeOf_child_le hc N hs) (hwfc c hc) (hcovc c hc) (hallpar c hc)
        have hrec := insertL_ok v (Node.parent cr crad ccs :: cs') _ hi hall
        rcases hp : insertL d cap v
            (pyArgmin (fun x => d x.router v) (Node.parent cr crad ccs :: cs'))
            (Node.parent cr crad ccs :: cs') with ⟨cs2, bopt⟩
        rw [hp] at hrec
        dsimp only
        rcases bopt with _ | b
        · simp only [InsLOk] at hrec
          rcases hrec with ⟨h1, h2, h3⟩
          simp only [InsOk, Node.values]
          have hne2 : cs2 ≠ [] := by
            intro hcon
            rw [hcon] at h2
            simp at h2
          refine ⟨by simp [Node.isParent], ?_, ?_, h3⟩
          · refine WfN.parent _ _ _ hne2 (by rw [h2]; exact hlen)
              (Or.inr (fun c hc => (h1 c hc).1)) (fun c hc => (h1 c hc).2.1)
          · refine Cov.parent _ _ _ ?_ (fun c hc => (h1 c hc).2.2)
            intro z hz
            have hz2 := h3.mem_iff.mp hz
            rcases List.mem_append.mp hz2 with hz2 | hz2
            · calc d r z ≤ rad := hcv z hz2
              _ ≤ qmax rad (d r v) := le_qmax_left _ _
            · simp only [List.mem_singleton] at hz2
              subst hz2
              exact le_qmax_right _ _
        · simp only [InsLOk] at hrec
          rcases hrec with ⟨h1, h2, hb1, hb2, hb3, h3⟩
          have hne2 : cs2 ≠ [] := by
            intro hcon
            rw [hcon] at h2
            simp at h2
          have haddok := addChildF_ok hm hcap r (qmax rad (d r v)) cs2 b hne2
            (by rw [h2]; exact hlen)
            (Or.inr (by
              intro x hx
              rcases List.mem_append.mp hx with hx | hx
              · exact (h1 x hx).1
              · simp only [List.mem_singleton] at hx
                subst hx
                exact hb1))
            (fun c hc => (h1 c hc).2.1) (fun c hc => (h1 c hc).2.2)
            (by
              intro z hz
              have hz2 : z ∈ valuesL cs2 ++ b.values := List.mem_append_left _ hz
              have hz3 := h3.mem_iff.mp hz2
              rcases List.mem_append.mp hz3 with hz3 | hz3
              · calc d r z ≤ rad := hcv z hz3
                _ ≤ qmax rad (d r v) := le_qmax_left _ _
              · simp only [List.mem_singleton] at hz3
                subst hz3
                exact le_qmax_right _ _)
            hb2 hb3
          rcases hres : addChildF d cap r (qmax rad (d r v)) cs2 b with m | ⟨a2, b2⟩
          · rw [hres] at haddok
            simp only [InsOk, Node.values, hres]
            simp only [AddOk] at haddok
            rcases haddok with ⟨g1, g2, g3, g4⟩
            exact ⟨g1, g2, g3, g4.trans h3⟩
          · rw [hres] at haddok
            simp only [InsOk, Node.values, hres]
            simp only [AddOk] at haddok
            rcases haddok with ⟨g1, g2, g3, g4, g5, g6, g7⟩
            exact ⟨g1, g2, g3, g4, g5, g6, g7.trans h3⟩

theorem mtreeInsert_ok {d : V → V → ℚ} {cap : ℕ} (hm : IsMetric d) (hcap : 2 ≤ cap)
    {t : MTreeS V} {vs : List V} (h : TreeOk d cap t vs) (v : V) :
    TreeOk d cap (mtreeInsert d t v) (vs ++ [v]) := by
  rcases h with ⟨hroot, hlen, hvals, hcapt⟩
  unfold mtreeInsert TreeOk mtreeValues
  rcases ht : t.root with _ | rt
  · dsimp only
    simp only [mtreeValues, ht] at hvals
    have hvs : vs = [] := List.perm_nil.mp hvals.symm
    subst hvs
    refine ⟨?_, by simp [hlen], ?_, by simp [hcapt]⟩
    · simp only [rootOk]
      refine ⟨mkParent_isParent _ _ _, ?_, ?_⟩
      · refine mkParent_wf (by simp; omega) ?_ ?_
        · exact Or.inl (by intro c hc; simp only [List.mem_singleton] at hc; subst hc; rfl)
        · intro c hc
          simp only [List.mem_singleton] at hc
          subst hc
          exact WfN.value v
      · refine mkParent_cov hm ?_
        intro c hc
        simp only [List.mem_singleton] at hc
        subst hc
        exact Cov.value v
    · rw [show (mkParent d (Node.value v) []).values = (Node.value v).values ++ valuesL [] from mkParent_values d _ _]
      simp [Node.values, valuesL]
  · dsimp only
    rw [ht] at hroot
    simp only [rootOk] at hroot
    rcases hroot with ⟨hpar, hwf, hcov⟩
    have hok := insertT_ok hm hcap v (sizeOf rt) rt le_rfl hwf hcov hpar
    simp only [mtreeValues, ht] at hvals
    rw [hcapt]
    rcases hres : rt.insertT d cap v with m | ⟨a, b⟩
    · dsimp only
      rw [hres] at hok
      simp only [InsOk] at hok
      rcases hok with ⟨h1, h2, h3, h4⟩
      refine ⟨⟨h1, h2, h3⟩, by simp [hlen], ?_, rfl⟩
      exact h4.trans (hvals.append_right [v])
    · dsimp only
      rw [hres] at hok
      simp only [InsOk] at hok
      rcases hok with ⟨h1, h2, h3, h4, h5, h6, h7⟩
      refine ⟨?_, by simp [hlen], ?_, rfl⟩
      · refine ⟨mkParent_isParent _ _ _, ?_, ?_⟩
        · refine mkParent_wf (by simp; omega) (Or.inr ?_) ?_
          · intro c hc
            rcases List.mem_cons.mp hc with rfl | hc
            · exact h1
            · simp only [List.mem_singleton] at hc
              subst hc
              exact h2
          · intro c hc
            rcases List.mem_cons.mp hc with rfl | hc
            · exact h3
            · simp only [List.mem_singleton] at hc
              subst hc
              exact h4
        · refine mkParent_cov hm ?_
          intro c hc
          rcases List.mem_cons.mp hc with rfl | hc
          · exact h5
          · simp only [List.mem_singleton] at hc
            subst hc
            exact h6
      · rw [mkParent_values]
        simp only [valuesL, List.append_nil]
        exact h7.trans (hvals.append_right [v])

theorem mtreeFold_ok {d : V → V → ℚ} {cap : ℕ} (hm : IsMetric d) (hcap : 2 ≤ cap) :
    ∀ (vs : List V) (t : MTreeS V) (acc : List V), TreeOk d cap t acc →
      TreeOk d cap (vs.foldl (mtreeInsert d) t) (acc ++ vs) := by
  intro vs
  induction vs with
  | nil => intro t acc h; simpa using h
  | cons v vs ih =>
    intro t acc h
    have h2 := mtreeInsert_ok hm hcap h v
    have h3 := ih (mtreeInsert d t v) (acc ++ [v]) h2
    simpa using h3

theorem mtreeOfList_ok {d : V → V → ℚ} {cap : ℕ} (hm : IsMetric d) (hcap : 2 ≤ cap)
    (vs : List V) : TreeOk d cap (mtreeOfList d cap vs) vs := by
  have h := mtreeFold_ok hm hcap vs (mtreeEmpty cap) []
  simp only [List.nil_append] at h
  exact h ⟨trivial, rfl, List.Perm.refl _, rfl⟩

theorem mtree_length_total {d : V → V → ℚ} :
    ∀ (vs : List V) (t : MTreeS V),
      (vs.foldl (mtreeInsert d) t).length = t.length + vs.length ∧
      (vs.foldl (mtreeInsert d) t).node_capacity = t.node_capacity := by
  intro vs
  induction vs with
  | nil => intro t; simp
  | cons v vs ih =>
    intro t
    have h := ih (mtreeInsert d t v)
    simp only [List.foldl_cons]
    refine ⟨?_, ?_⟩
    · rw [h.1]
      simp [mtreeInsert, List.length_cons]
      omega
    · rw [h.2]
      rfl

/-- C2: Covering invariant — after every completed insertion (any sequence
of insertions into a fresh tree with node capacity ≥ 2 and a metric
distance function), every router node `R` of the tree satisfies
`distance(R.router, v) ≤ R.radius` for every value `v` stored in the
subtree beneath `R`. -/
theorem C2_covering_invariant {V : Type} (d : V → V → ℚ) (cap : ℕ) (vs : List V)
    (hm : IsMetric d) (hcap : 2 ≤ cap) :
    ∀ rt, (mtreeOfList d cap vs).root = some rt →
      ∀ m ∈ rt.subnodes, m.isParent = true → ∀ z ∈ m.values, d m.router z ≤ m.radius := by
  intro rt hrt m hmem _ z hz
  rcases mtreeOfList_ok hm hcap vs with ⟨hroot, _, _, _⟩
  rw [hrt] at hroot
  rcases hroot with ⟨_, _, hcov⟩
  exact cov_values hm (cov_of_mem_subnodes hcov m hmem) z hz

theorem C2_covering_invariant_witness :
    ∃ rt, (mtreeOfList distAbsZ 2 [0, 10, 20]).root = some rt ∧
      ∀ m ∈ rt.subnodes, m.isParent = true →
        ∀ z ∈ m.values, distAbsZ m.router z ≤ m.radius := by
  refine ⟨Node.parent 0 20 [Node.parent 0 0 [Node.value 0],
    Node.parent 10 10 [Node.value 10, Node.value 20]], ?_, ?_⟩
  · with_unfolding_all rfl
  · exact C2_covering_invariant distAbsZ 2 [0, 10, 20] isMetric_distAbsZ (by omega) _
      (by with_unfolding_all rfl)

/-- C4: Capacity bound — in every tree built with capacity ≥ 2 from any
insertion order, every router holds at most `node_capacity` children; and
`add_child` triggers a split exactly when adding one more child would
exceed that capacity. -/
theorem C4_capacity_bound {V : Type} (d : V → V → ℚ) (cap : ℕ) (vs : List V)
    (hm : IsMetric d) (hcap : 2 ≤ cap) :
    (∀ rt, (mtreeOfList d cap vs).root = some rt →
      ∀ r rad cs, Node.parent r rad cs ∈ rt.subnodes → cs.length ≤ cap) ∧
    (∀ (r : V) (rad : ℚ) (cs : List (Node V)) (child : Node V), cs.length ≤ cap →
      ((∃ a b, addChildF d cap r rad cs child = InsResult.two a b) ↔
        cap < cs.length + 1)) := by
  constructor
  · intro rt hrt r rad cs hmem
    rcases mtreeOfList_ok hm hcap vs with ⟨hroot, _, _, _⟩
    rw [hrt] at hroot
    rcases hroot with ⟨_, hwf, _⟩
    have := wfn_of_mem_subnodes hwf _ hmem
    rcases this with _ | ⟨_, _, _, _, hlen, _, _⟩
    exact hlen
  · intro r rad cs child hlen
    constructor
    · rintro ⟨a, b, hab⟩
      by_contra hcon
      push_neg at hcon
      have hlt : cs.length < cap := by omega
      unfold addChildF at hab
      rw [if_neg (not_le.mpr hlt)] at hab
      exact InsResult.noConfusion hab
    · intro hgt
      have hcl : cs.length = cap := by omega
      cases cs with
      | nil => simp at hcl; omega
      | cons c1 cs1 =>
        cases cs1 with
        | nil => simp at hcl; omega
        | cons c2 rest =>
          unfold addChildF
          rw [if_pos (le_of_eq hcl.symm)]
          simp only [List.cons_append]
          exact ⟨_, _, rfl⟩

theorem C4_capacity_bound_witness :
    (∀ rt, (mtreeOfList distAbsZ 2 [0, 10, 20, 30]).root = some rt →
      ∀ r rad cs, Node.parent r rad cs ∈ rt.subnodes → cs.length ≤ 2) ∧
    ((∃ a b, addChildF distAbsZ 2 (0 : ℤ) 0 [Node.value 0, Node.value 10]
        (Node.value 20) = InsResult.two a b) ↔ 2 < 2 + 1) := by
  have h := C4_capacity_bound distAbsZ 2 [0, 10, 20, 30] isMetric_distAbsZ (by omega)
  exact ⟨h.1, h.2 0 0 [Node.value 0, Node.value 10] (Node.value 20) (by decide)⟩

/-- C5: Round-trip — inserting any finite multiset of values into a fresh
tree (capacity ≥ 2, metric distance) gives `len(tree) = |S|` counting
duplicates, iteration produces exactly the values of `S` (so the distinct
sets agree), and `contains` accepts every member of `S`. -/
theorem C5_roundtrip {V : Type} [DecidableEq V] (d : V → V → ℚ) (cap : ℕ) (vs : List V)
    (hm : IsMetric d) (hcap : 2 ≤ cap) :
    (mtreeOfList d cap vs).length = vs.length ∧
    (∀ x : V, x ∈ mtreeValues (mtreeOfList d cap vs) ↔ x ∈ vs) ∧
    (∀ v ∈ vs, mtreeContains (mtreeOfList d cap vs) v = true) := by
  rcases mtreeOfList_ok hm hcap vs with ⟨hroot, hlen, hvals, _⟩
  refine ⟨hlen, fun x => hvals.mem_iff, ?_⟩
  intro v hv
  unfold mtreeContains
  rcases hrt : (mtreeOfList d cap vs).root with _ | rt
  · exfalso
    simp only [mtreeValues, hrt] at hvals
    have := List.perm_nil.mp hvals.symm
    rw [this] at hv
    simp at hv
  · simp only [mtreeValues, hrt] at hvals
    exact (containsV_iff v rt).mpr (hvals.mem_iff.mpr hv)

theorem C5_roundtrip_witness :
    (mtreeOfList distAbsZ 2 [4, 7, 4]).length = 3 ∧
    (∀ x : ℤ, x ∈ mtreeValues (mtreeOfList distAbsZ 2 [4, 7, 4]) ↔ x ∈ [4, 7, 4]) ∧
    (∀ v ∈ [(4 : ℤ), 7, 4], mtreeContains (mtreeOfList distAbsZ 2 [4, 7, 4]) v = true) := by
  exact C5_roundtrip distAbsZ 2 [4, 7, 4] isMetric_distAbsZ (by omega)

/-- C6: Scenario A — capacity 2, inserting `0, 10, 20, 30` with
absolute-difference distance: `knn(11, 1)` returns exactly `[10]`, and
`knn(11, 2)` returns a list whose value set is `{10, 20}`. -/
theorem C6_scenario_a :
    mtreeKnn distAbsZ (mtreeOfList distAbsZ 2 [0, 10, 20, 30]) 11 1 = .ok [10] ∧
    ∃ l, mtreeKnn distAbsZ (mtreeOfList distAbsZ 2 [0, 10, 20, 30]) 11 2 = .ok l ∧
      l.length = 2 ∧ l.toFinset = ({10, 20} : Finset ℤ) := by
  refine ⟨?_, [20, 10], ?_, ?_, ?_⟩
  · with_unfolding_all rfl
  · with_unfolding_all rfl
  · rfl
  · decide

/-- C7 (amended): `MTree.__init__` performs no validation of
`node_capacity`; construction with any capacity (including capacities
below 2) and any initial value sequence completes normally, storing the
capacity as given and inserting every value. -/
theorem C7_construction_no_validation {V : Type} (d : V → V → ℚ) (cap : ℕ) (vs : List V) :
    (mtreeOfList d cap vs).node_capacity = cap ∧
    (mtreeOfList d cap vs).length = vs.length := by
  have h := mtree_length_total (d := d) vs (mtreeEmpty cap)
  unfold mtreeOfList
  exact ⟨h.2, by rw [h.1]; simp [mtreeEmpty]⟩

/-- C7 counterexample: constructing with `node_capacity = 1 < 2` does not
fail — it yields a working tree holding both inserted values. -/
theorem C7_counterexample :
    (mtreeOfList distAbsZ 1 [3, 5]).length = 2 ∧
    mtreeContains (mtreeOfList distAbsZ 1 [3, 5]) 3 = true ∧
    mtreeContains (mtreeOfList distAbsZ 1 [3, 5]) 5 = true := by
  refine ⟨?_, ?_, ?_⟩ <;> with_unfolding_all rfl

/-- C8: `knn` argument errors — `knn(query, k)` with `k < 0` fails with the
assertion error (the tree, a pure value here, is untouched), and
`knn(query, 0)` succeeds with the empty list. -/
theorem C8_knn_argument_errors {V : Type} [DecidableEq V] (d : V → V → ℚ)
    (t : MTreeS V) (q : V) :
    (∀ k : ℤ, k < 0 → mtreeKnn d t q k = .error ()) ∧
    mtreeKnn d t q 0 = .ok [] := by
  constructor
  · intro k hk
    unfold mtreeKnn
    rw [if_pos hk]
  · unfold mtreeKnn
    rw [if_neg (by omega), if_pos rfl]

theorem C8_knn_argument_errors_witness :
    mtreeKnn distAbsZ (mtreeOfList distAbsZ 2 [0, 10]) 5 (-3) = .error () ∧
    mtreeKnn distAbsZ (mtreeOfList distAbsZ 2 [0, 10]) 5 0 = .ok [] := by
  have h := C8_knn_argument_errors distAbsZ (mtreeOfList distAbsZ 2 [0, 10]) 5
  exact ⟨h.1 (-3) (by omega), h.2⟩

/-- C10: Empty-tree queries are total — on the freshly constructed tree,
`contains` is false for every value, iteration is empty, and `knn` returns
the empty list for every `k ≥ 0`, with no error raised. -/
theorem C10_empty_tree_total {V : Type} [DecidableEq V] (d : V → V → ℚ) (cap : ℕ) :
    (∀ v : V, mtreeContains (mtreeEmpty (V := V) cap) v = false) ∧
    mtreeValues (mtreeEmpty (V := V) cap) = [] ∧
    (∀ (q : V) (k : ℤ), 0 ≤ k → mtreeKnn d (mtreeEmpty cap) q k = .ok []) := by
  refine ⟨fun v => rfl, rfl, ?_⟩
  intro q k hk
  unfold mtreeKnn
  rw [if_neg (not_lt.mpr hk)]
  by_cases h0 : k = 0
  · rw [if_pos h0]
  · rw [if_neg h0, if_pos (by exact_mod_cast hk)]
    rfl

theorem C10_empty_tree_total_witness :
    mtreeContains (mtreeEmpty (V := ℤ) 4) 7 = false ∧
    mtreeKnn distAbsZ (mtreeEmpty 4) 7 5 = .ok [] := by
  have h := C10_empty_tree_total distAbsZ 4
  exact ⟨h.1 7, h.2.2 7 5 (by omega)⟩

/-- C3 (amended): the covers/least-increase descent policy of the claim is
implemented by `mtree4.py`'s `ParentNode.insert` (its selection always
satisfies the spec's §4.2 policy), while `classes.py`'s `ParentNode.insert`
recurses into the first child minimizing `distance(child, value)`
unconditionally — `pyArgmin` over that key is exactly the selector
`Node.insertT` uses, with no covering check. -/
theorem C3_descent_policy {V : Type} (d : V → V → ℚ) :
    (∀ (cs : List (Node V)) (v : V), cs ≠ [] →
      SpecPolicyChoice d cs v (mtree4Select d cs v)) ∧
    (∀ (cs : List (Node V)) (v : V), cs ≠ [] →
      IsFirstMin (fun x => d x.router v) cs (pyArgmin (fun x => d x.router v) cs)) := by
  constructor
  · intro cs v hne
    have hfm := pyArgmin_spec (fun x => d x.router v) cs hne
    obtain ⟨hlt, -, -⟩ := hfm
    simp only [mtree4Select]
    rw [List.get?_eq_get hlt]
    dsimp only
    by_cases hcov : coversB d (cs.get ⟨pyArgmin (fun x => d x.router v) cs, hlt⟩) v
    · rw [if_pos hcov]
      refine ⟨_, hlt, pyArgmin_spec _ cs hne, Or.inl ⟨?_, rfl⟩⟩
      simpa [coversB] using hcov
    · rw [if_neg hcov]
      refine ⟨_, hlt, pyArgmin_spec _ cs hne, Or.inr ⟨?_, pyArgmin_spec _ cs hne⟩⟩
      simpa [coversB] using hcov
  · intro cs v hne
    exact pyArgmin_spec _ cs hne

theorem C3_descent_policy_witness :
    SpecPolicyChoice distAbsZ csPolicy 4 (mtree4Select distAbsZ csPolicy 4) ∧
    IsFirstMin (fun x => distAbsZ x.router 4) csPolicy
      (pyArgmin (fun x => distAbsZ x.router 4) csPolicy) := by
  have h := C3_descent_policy distAbsZ
  exact ⟨h.1 csPolicy 4 (by simp [csPolicy]), h.2 csPolicy 4 (by simp [csPolicy])⟩

/-- C3 counterexample: on `csPolicy` with value `4`, `classes.py` descends
into child 0 (the plain nearest child) while the claimed policy — as
`mtree4.py` implements it — selects child 1; the selection `classes.py`
makes does not satisfy the claimed covers/least-increase policy. -/
theorem C3_counterexample :
    pyArgmin (fun x => distAbsZ x.router 4) csPolicy = 0 ∧
    mtree4Select distAbsZ csPolicy 4 = 1 ∧
    ¬ SpecPolicyChoice distAbsZ csPolicy 4
      (pyArgmin (fun x => distAbsZ x.router 4) csPolicy) := by
  have hd0 : distAbsZ (0 : ℤ) 4 = 4 := by with_unfolding_all rfl
  have hd10 : distAbsZ (10 : ℤ) 4 = 6 := by with_unfolding_all rfl
  refine ⟨by with_unfolding_all rfl, by with_unfolding_all rfl, ?_⟩
  rw [show pyArgmin (fun x => distAbsZ x.router 4) csPolicy = 0 by with_unfolding_all rfl]
  rintro ⟨j, hj, ⟨hjlt, hall, -⟩, hdisj⟩
  have hlen : csPolicy.length = 2 := rfl
  have hj2 : j < 2 := by rw [hlen] at hj; exact hj
  have e0 : ∀ h : 0 < csPolicy.length,
      csPolicy.get ⟨0, h⟩ = Node.parent 0 0 [Node.value 0] := fun _ => rfl
  have e1 : ∀ h : 1 < csPolicy.length,
      csPolicy.get ⟨1, h⟩ = Node.parent 10 5 [Node.value 10] := fun _ => rfl
  interval_cases j
  · rcases hdisj with ⟨hcov, -⟩ | ⟨-, hmin⟩
    · rw [e0] at hcov
      simp only [Node.router, Node.radius] at hcov
      rw [hd0] at hcov
      norm_num at hcov
    · obtain ⟨h0, hall2, -⟩ := hmin
      have h1 := hall2 1 (by rw [hlen]; omega)
      rw [e0, e1] at h1
      simp only [Node.router, Node.radius] at h1
      rw [hd0, hd10] at h1
      norm_num at h1
  · have h0 := hall 0 (by rw [hlen]; omega)
    rw [e0, e1] at h0
    simp only [Node.router, Node.radius] at h0
    rw [hd0, hd10] at h0
    norm_num at h0

section LimitedSetProofs

variable {α : Type}

theorem entryLt_irrefl (e : Entry α) : ¬ entryLt e e := by
  unfold entryLt
  rintro (h | ⟨h1, h2⟩)
  · exact lt_irrefl _ h
  · exact lt_irrefl _ h2

theorem not_entryLt_iff {x y : Entry α} :
    ¬ entryLt x y ↔ (y.1 ≤ x.1 ∧ (x.1 = y.1 → y.2.1 ≤ x.2.1)) := by
  unfold entryLt
  constructor
  · intro h
    constructor
    · by_contra hc
      push_neg at hc
      exact h (Or.inl hc)
    · intro heq
      by_contra hc
      push_neg at hc
      exact h (Or.inr ⟨heq, hc⟩)
  · rintro ⟨ha, hb⟩ (h | ⟨h1, h2⟩)
    · linarith
    · have := hb h1
      omega

theorem entryLt_asymm {e f : Entry α} (h : entryLt e f) : ¬ entryLt f e := by
  rw [not_entryLt_iff]
  unfold entryLt at h
  rcases h with h1 | ⟨h1a, h1b⟩
  · exact ⟨le_of_lt h1, fun heq => absurd heq.symm (ne_of_lt h1)⟩
  · exact ⟨le_of_eq h1a, fun _ => le_of_lt h1b⟩

theorem not_entryLt_trans {a b c : Entry α} (h1 : ¬ entryLt b a) (h2 : ¬ entryLt c b) :
    ¬ entryLt c a := by
  rw [not_entryLt_iff] at h1 h2 ⊢
  refine ⟨le_trans h1.1 h2.1, ?_⟩
  intro heq
  have hba : b.1 = a.1 := le_antisymm (heq ▸ h2.1) h1.1
  have hcb : c.1 = b.1 := by rw [hba, heq]
  exact le_trans (h1.2 hba) (h2.2 hcb)

theorem not_entryLt_both {e f : Entry α} (h1 : ¬ entryLt e f) (h2 : ¬ entryLt f e) :
    e.1 = f.1 ∧ e.2.1 = f.2.1 := by
  rw [not_entryLt_iff] at h1 h2
  have hq : e.1 = f.1 := le_antisymm h2.1 h1.1
  exact ⟨hq, le_antisymm (h2.2 hq.symm) (h1.2 hq)⟩

theorem popMinE_none {l : List (Entry α)} : popMinE l = none ↔ l = [] := by
  cases l with
  | nil => simp [popMinE]
  | cons e es =>
    simp only [popMinE]
    constructor
    · intro h
      rcases hr : popMinE es with _ | ⟨m, rest⟩
      · rw [hr] at h
        simp at h
      · rw [hr] at h
        dsimp only at h
        by_cases hc : entryLt m e
        · rw [if_pos hc] at h
          simp at h
        · rw [if_neg hc] at h
          simp at h
    · intro h
      exact absurd h (List.cons_ne_nil e es)

theorem popMinE_spec {l : List (Entry α)} {e : Entry α} {rest : List (Entry α)}
    (h : popMinE l = some (e, rest)) :
    e ∈ l ∧ l.Perm (e :: rest) ∧ ∀ x ∈ l, ¬ entryLt x e := by
  induction l generalizing e rest with
  | nil => simp [popMinE] at h
  | cons a as ih =>
    simp only [popMinE] at h
    rcases hr : popMinE as with _ | ⟨⟨m, rest2⟩⟩
    · rw [hr] at h
      dsimp only at h
      have has : as = [] := popMinE_none.mp hr
      subst has
      simp only [Option.some.injEq, Prod.mk.injEq] at h
      rcases h with ⟨rfl, rfl⟩
      refine ⟨List.mem_singleton_self _, List.Perm.refl _, ?_⟩
      intro x hx
      simp only [List.mem_singleton] at hx
      subst hx
      exact entryLt_irrefl x
    · rw [hr] at h
      dsimp only at h
      rcases ih hr with ⟨hmem, hperm, hmin⟩
      by_cases hc : entryLt m a
      · rw [if_pos hc] at h
        simp only [Option.some.injEq, Prod.mk.injEq] at h
        rcases h with ⟨rfl, rfl⟩
        refine ⟨List.mem_cons_of_mem a hmem, ?_, ?_⟩
        · refine List.Perm.trans (hperm.cons a) ?_
          exact List.Perm.swap _ _ _
        · intro x hx
          rcases List.mem_cons.mp hx with rfl | hx
          · exact entryLt_asymm hc
          · exact hmin x hx
      · rw [if_neg hc] at h
        simp only [Option.some.injEq, Prod.mk.injEq] at h
        rcases h with ⟨rfl, rfl⟩
        refine ⟨List.mem_cons_self _ _, List.Perm.refl _, ?_⟩
        intro x hx
        rcases List.mem_cons.mp hx with rfl | hx
        · exact entryLt_irrefl x
        · exact not_entryLt_trans hc (hmin x hx)

theorem popMinE_length {l : List (Entry α)} {e : Entry α} {rest : List (Entry α)}
    (h : popMinE l = some (e, rest)) : rest.length + 1 = l.length := by
  have := (popMinE_spec h).2.1.length_eq
  simp only [List.length_cons] at this
  omega

theorem lsCleanGo_spec [DecidableEq α] (its : List α) :
    ∀ (fuel : ℕ) (pq : List (Entry α)),
      (∀ e ∈ lsCleanGo its fuel pq, e ∈ pq) ∧
      (∀ e ∈ pq, e.2.2 ∈ its → e ∈ lsCleanGo its fuel pq) ∧
      (pq.length ≤ fuel →
        ∀ e rest, popMinE (lsCleanGo its fuel pq) = some (e, rest) → e.2.2 ∈ its) ∧
      (∃ extra, pq.Perm (lsCleanGo its fuel pq ++ extra)) := by
  intro fuel
  induction fuel with
  | zero =>
    intro pq
    simp only [lsCleanGo]
    refine ⟨fun e he => he, fun e he _ => he, ?_, ⟨[], by simp⟩⟩
    intro hlen e rest hpop
    have : pq = [] := List.length_eq_zero.mp (Nat.le_zero.mp hlen)
    subst this
    simp [popMinE] at hpop
  | succ fuel ih =>
    intro pq
    simp only [lsCleanGo]
    rcases hr : popMinE pq with _ | ⟨⟨e, rest⟩⟩
    · refine ⟨fun e he => he, fun e he _ => he, ?_, ⟨[], by simp⟩⟩
      intro _ e2 r2 h2
      rw [hr] at h2
      cases h2
    · dsimp only
      rcases popMinE_spec hr with ⟨hmem, hperm, hmin⟩
      by_cases hin : e.2.2 ∈ its
      · rw [if_pos hin]
        refine ⟨fun x hx => hx, fun x hx _ => hx, ?_, ⟨[], by simp⟩⟩
        intro _ e2 r2 h2
        rw [hr] at h2
        simp only [Option.some.injEq, Prod.mk.injEq] at h2
        rw [← h2.1]
        exact hin
      · rw [if_neg hin]
        rcases ih rest with ⟨i1, i2, i3, extra, i4⟩
        refine ⟨?_, ?_, ?_, ?_⟩
        · intro x hx
          have hx2 := i1 x hx
          exact hperm.mem_iff.mpr (List.mem_cons_of_mem e hx2)
        · intro x hx hlive
          have hx2 := hperm.mem_iff.mp hx
          rcases List.mem_cons.mp hx2 with rfl | hx2
          · exact absurd hlive hin
          · exact i2 x hx2 hlive
        · intro hlen
          refine i3 ?_
          have := popMinE_length hr
          omega
        · refine ⟨e :: extra, ?_⟩
          refine hperm.trans ?_
          refine List.Perm.trans (i4.cons e) ?_
          exact List.perm_middle.symm

theorem lsClean_spec [DecidableEq α] (its : List α) (pq : List (Entry α)) :
    (∀ e ∈ lsClean its pq, e ∈ pq) ∧
    (∀ e ∈ pq, e.2.2 ∈ its → e ∈ lsClean its pq) ∧
    (∀ e rest, popMinE (lsClean its pq) = some (e, rest) → e.2.2 ∈ its) ∧
    (∃ extra, pq.Perm (lsClean its pq ++ extra)) := by
  rcases lsCleanGo_spec its pq.length pq with ⟨h1, h2, h3, h4⟩
  exact ⟨h1, h2, h3 le_rfl, h4⟩

theorem countNe_symm : Symmetric (fun e1 e2 : Entry α => e1.2.1 ≠ e2.2.1) :=
  fun _ _ h hc => h hc.symm

theorem lsClean_wf [DecidableEq α] {f : α → ℚ} {k : ℕ} {s : LSet α} (hwf : LSWf f k s) :
    LSWf f k { s with pq := lsClean s.items s.pq } := by
  obtain ⟨w1, w2, w3, w4, w5, w6, w7⟩ := hwf
  rcases lsClean_spec s.items s.pq with ⟨c1, c2, c3, extra, c4⟩
  refine ⟨w1, ?_, ?_, w4, ?_, ?_, w7⟩
  · intro it hit
    rcases w2 it hit with ⟨e, he, hee⟩
    exact ⟨e, c2 e he (by rw [hee]; exact hit), hee⟩
  · intro e he
    exact w3 e (c1 e he)
  · intro e he
    exact w5 e (c1 e he)
  · have hpw := (c4.pairwise_iff (fun h hc => h hc.symm)).mp w6
    exact (List.pairwise_append.mp hpw).1

theorem lsLimit_snd [DecidableEq α] (s : LSet α) :
    (lsLimit s).2 = { s with pq := lsClean s.items s.pq } := by
  unfold lsLimit
  dsimp only
  by_cases h : s.items.length < s.k
  · rw [if_pos h]
  · rw [if_neg h]
    rcases hp : popMinE (lsClean s.items s.pq) with _ | ⟨⟨e, r⟩⟩ <;> dsimp only

theorem lsLimit_val [DecidableEq α] {f : α → ℚ} {k : ℕ} {s : LSet α} (hwf : LSWf f k s) :
    (s.items.length < k → (lsLimit s).1 = none) ∧
    (k ≤ s.items.length → 1 ≤ k → ∃ q, (lsLimit s).1 = some q ∧
      (∀ it ∈ s.items, f it ≤ q) ∧ ∃ it2 ∈ s.items, f it2 = q) := by
  obtain ⟨w1, w2, w3, w4, w5, w6, w7⟩ := hwf
  constructor
  · intro hlt
    unfold lsLimit
    dsimp only
    rw [if_pos (by rw [w7]; exact hlt)]
  · intro hge hk1
    unfold lsLimit
    dsimp only
    rw [if_neg (by rw [w7]; omega)]
    have hitsne : s.items ≠ [] := by
      intro hc
      rw [hc] at hge
      simp at hge
      omega
    obtain ⟨it0, hit0⟩ : ∃ it, it ∈ s.items := List.exists_mem_of_ne_nil _ hitsne
    rcases lsClean_spec s.items s.pq with ⟨c1, c2, c3, _⟩
    rcases w2 it0 hit0 with ⟨e0, he0, he0i⟩
    have he0c : e0 ∈ lsClean s.items s.pq := c2 e0 he0 (by rw [he0i]; exact hit0)
    have hne : lsClean s.items s.pq ≠ [] := by
      intro hc
      rw [hc] at he0c
      exact absurd he0c (List.not_mem_nil e0)
    rcases hp : popMinE (lsClean s.items s.pq) with _ | ⟨⟨e, rest⟩⟩
    · exact absurd (popMinE_none.mp hp) hne
    · dsimp only
      rcases popMinE_spec hp with ⟨hemem, _, hmin⟩
      have helive : e.2.2 ∈ s.items := c3 e rest hp
      have h3e := w3 e (c1 e hemem)
      refine ⟨-e.1, rfl, ?_, ⟨e.2.2, helive, by rw [h3e]; ring⟩⟩
      intro it hit
      rcases w2 it hit with ⟨e2, he2, he2i⟩
      have he2c := c2 e2 he2 (by rw [he2i]; exact hit)
      have hnlt := hmin e2 he2c
      rw [not_entryLt_iff] at hnlt
      have h3 := w3 e2 (c1 e2 he2c)
      rw [he2i] at h3
      have h4 := hnlt.1
      rw [h3] at h4
      linarith

theorem lsDiscard_wf [DecidableEq α] {f : α → ℚ} {k : ℕ} {s : LSet α} (hwf : LSWf f k s)
    (it : α) :
    LSWf f k (lsDiscard it s) ∧ ∀ x ∈ (lsDiscard it s).items, x ∈ s.items := by
  obtain ⟨w1, w2, w3, w4, w5, w6, w7⟩ := hwf
  unfold lsDiscard
  refine ⟨⟨w1.erase it, ?_, w3, ?_, w5, w6, w7⟩, ?_⟩
  · intro x hx
    exact w2 x (List.mem_of_mem_erase hx)
  · calc (s.items.erase it).length ≤ s.items.length := List.length_erase_le _ _
    _ ≤ s.k := w4
  · intro x hx
    exact List.mem_of_mem_erase hx

theorem lsAdd_wf [DecidableEq α] {f : α → ℚ} {k : ℕ} {s : LSet α} (hwf : LSWf f k s)
    (it : α) :
    LSWf f k (lsAdd (f it) it s) ∧
    (∀ x ∈ s.items, x ∉ (lsAdd (f it) it s).items →
      ∀ y ∈ (lsAdd (f it) it s).items, f y ≤ f x) ∧
    (∀ x ∈ (lsAdd (f it) it s).items, x ∈ s.items ∨ x = it) := by
  have hsnd := lsLimit_snd s
  have hwf1 : LSWf f k { s with pq := lsClean s.items s.pq } := lsClean_wf hwf
  simp only [lsAdd]
  rw [hsnd]
  by_cases hg : leLim (f it) (lsLimit s).1 = true
  · rw [if_pos hg]
    obtain ⟨w1, w2, w3, w4, w5, w6, w7⟩ := hwf1
    dsimp only at w1 w2 w3 w4 w5 w6 w7
    -- the live set and heap after the push
    set cpq := lsClean s.items s.pq with hcpq
    set items1 := if it ∈ s.items then s.items else s.items ++ [it] with hitems1
    set newE : Entry α := (-(f it), s.count, it) with hnewE
    set pq2 := cpq ++ [newE] with hpq2
    have hsub : ∀ x ∈ items1, x ∈ s.items ∨ x = it := by
      intro x hx
      rw [hitems1] at hx
      by_cases hm : it ∈ s.items
      · rw [if_pos hm] at hx
        exact Or.inl hx
      · rw [if_neg hm] at hx
        rcases List.mem_append.mp hx with hx | hx
        · exact Or.inl hx
        · simp only [List.mem_singleton] at hx
          exact Or.inr hx
    have hsup : ∀ x ∈ s.items, x ∈ items1 := by
      intro x hx
      rw [hitems1]
      by_cases hm : it ∈ s.items
      · rw [if_pos hm]
        exact hx
      · rw [if_neg hm]
        exact List.mem_append_left _ hx
    have hitmem : it ∈ items1 := by
      rw [hitems1]
      by_cases hm : it ∈ s.items
      · rw [if_pos hm]
        exact hm
      · rw [if_neg hm]
        exact List.mem_append_right _ (List.mem_singleton_self it)
    have hnodup1 : items1.Nodup := by
      rw [hitems1]
      by_cases hm : it ∈ s.items
      · rw [if_pos hm]
        exact w1
      · rw [if_neg hm]
        rw [List.nodup_append]
        exact ⟨w1, List.nodup_singleton it, by
          intro a ha hb
          simp only [List.mem_singleton] at hb
          subst hb
          exact hm ha⟩
    have hlen1 : items1.length ≤ s.items.length + 1 := by
      rw [hitems1]
      by_cases hm : it ∈ s.items
      · rw [if_pos hm]
        omega
      · rw [if_neg hm]
        simp
    have hW2 : ∀ x ∈ items1, ∃ e ∈ pq2, e.2.2 = x := by
      intro x hx
      by_cases hxit : x = it
      · exact ⟨newE, List.mem_append_right _ (List.mem_singleton_self _), hxit.symm⟩
      · rcases hsub x hx with hxs | hxs
        · rcases w2 x hxs with ⟨e, he, hee⟩
          exact ⟨e, List.mem_append_left _ he, hee⟩
        · exact absurd hxs hxit
    have hW3 : ∀ e ∈ pq2, e.1 = -(f e.2.2) := by
      intro e he
      rcases List.mem_append.mp he with he | he
      · exact w3 e he
      · simp only [List.mem_singleton] at he
        subst he
        rfl
    have hW5 : ∀ e ∈ pq2, e.2.1 < s.count + 1 := by
      intro e he
      rcases List.mem_append.mp he with he | he
      · have := w5 e he
        omega
      · simp only [List.mem_singleton] at he
        subst he
        simp only [hnewE]
        omega
    have hW6 : List.Pairwise (fun e1 e2 : Entry α => e1.2.1 ≠ e2.2.1) pq2 := by
      rw [hpq2, List.pairwise_append]
      refine ⟨w6, List.pairwise_singleton _ _, ?_⟩
      intro e1 h1 e2 h2
      simp only [List.mem_singleton] at h2
      subst h2
      have := w5 e1 h1
      simp only [hnewE]
      omega
    by_cases hover : s.k < items1.length
    · rw [if_pos hover]
      rcases hp2 : popMinE pq2 with _ | ⟨⟨e, rest⟩⟩
      · exact absurd (popMinE_none.mp hp2) (by simp [hpq2])
      · dsimp only
        rcases popMinE_spec hp2 with ⟨hem, hperm2, hmin2⟩
        have hrestsub : ∀ x ∈ rest, x ∈ pq2 := by
          intro x hx
          exact hperm2.mem_iff.mpr (List.mem_cons_of_mem e hx)
        have hlive : e.2.2 ∈ items1 := by
          rcases List.mem_append.mp hem with hecl | henew
          · rcases hpc : popMinE cpq with _ | ⟨⟨e1, r1⟩⟩
            · rw [popMinE_none.mp hpc] at hecl
              exact absurd hecl (List.not_mem_nil e)
            · rcases popMinE_spec hpc with ⟨he1m, _, hmin1⟩
              have he1live : e1.2.2 ∈ s.items :=
                (lsClean_spec s.items s.pq).2.2.1 e1 r1 hpc
              have hn1 : ¬ entryLt e e1 := hmin1 e hecl
              have hn2 : ¬ entryLt e1 e := hmin2 e1 (List.mem_append_left _ he1m)
              have hboth := not_entryLt_both hn1 hn2
              by_cases heq : e = e1
              · subst heq
                exact hsup _ he1live
              · exfalso
                have hnecount := List.Pairwise.forall countNe_symm w6 hecl he1m heq
                exact hnecount hboth.2
          · simp only [List.mem_singleton] at henew
            subst henew
            exact hitmem
        have hewf : e.1 = -(f e.2.2) := hW3 e hem
        refine ⟨⟨hnodup1.erase _, ?_, ?_, ?_, ?_, ?_, w7⟩, ?_, ?_⟩
        · -- every remaining live item still has an entry in the popped heap
          intro x hx
          have hx1 : x ∈ items1 := List.mem_of_mem_erase hx
          have hxne : x ≠ e.2.2 := (List.Nodup.mem_erase_iff hnodup1).mp hx |>.1
          rcases hW2 x hx1 with ⟨ex, hex, hexi⟩
          have := hperm2.mem_iff.mp hex
          rcases List.mem_cons.mp this with rfl | hexr
          · exact absurd hexi.symm hxne
          · exact ⟨ex, hexr, hexi⟩
        · intro e2 he2
          exact hW3 e2 (hrestsub e2 he2)
        · have hliveln := List.length_erase_of_mem hlive
          rw [hliveln]
          have hfin : items1.length - 1 ≤ s.k := by omega
          exact hfin
        · intro e2 he2
          exact hW5 e2 (hrestsub e2 he2)
        · have := (hperm2.pairwise_iff (fun h hc => h hc.symm)).mp hW6
          exact List.Pairwise.of_cons this
        · -- eviction never keeps a worse-priority item
          intro x hx hnx
          have hx1 : x ∈ items1 := hsup x hx
          have hxe : x = e.2.2 := by
            by_contra hxe
            exact hnx ((List.Nodup.mem_erase_iff hnodup1).mpr ⟨hxe, hx1⟩)
          intro y hy
          have hy1 : y ∈ items1 := List.mem_of_mem_erase hy
          rcases hW2 y hy1 with ⟨ey, hey, heyi⟩
          have hney := hmin2 ey hey
          rw [not_entryLt_iff] at hney
          have h1 := hney.1
          rw [hewf, hW3 ey hey, heyi, ← hxe] at h1
          linarith
        · intro x hx
          exact hsub x (List.mem_of_mem_erase hx)
    · rw [if_neg hover]
      have hlenk : items1.length ≤ s.k := by omega
      refine ⟨⟨hnodup1, hW2, hW3, hlenk, hW5, hW6, w7⟩, ?_, hsub⟩
      intro x hx hnx
      exact absurd (hsup x hx) hnx
  · rw [if_neg hg]
    obtain ⟨w1, w2, w3, w4, w5, w6, w7⟩ := hwf1
    refine ⟨⟨w1, w2, w3, w4, w5, w6, w7⟩, ?_, ?_⟩
    · intro x hx hnx
      exact absurd hx hnx
    · intro x hx
      exact Or.inl hx

theorem lsRunAux_wf [DecidableEq α] {f : α → ℚ} {k : ℕ} :
    ∀ (ops : List (LSOp α)) (s : LSet α), OpsPrioritized f ops → LSWf f k s →
      LSWf f k (ops.foldl lsStep s) := by
  intro ops
  induction ops with
  | nil => intro s _ hs; exact hs
  | cons op rest ih =>
    intro s hops hs
    simp only [List.foldl_cons]
    refine ih (lsStep s op) (fun p it hmem => hops p it (List.mem_cons_of_mem op hmem)) ?_
    cases op with
    | add p it =>
      have hp : p = f it := hops p it (List.mem_cons_self _ _)
      subst hp
      exact (lsAdd_wf hs it).1
    | discard it =>
      exact (lsDiscard_wf hs it).1

theorem lsEmpty_wf [DecidableEq α] {f : α → ℚ} (k : ℕ) : LSWf f k (lsEmpty (α := α) k) := by
  refine ⟨List.nodup_nil, ?_, ?_, ?_, ?_, List.Pairwise.nil, rfl⟩
  · intro it hit
    simp [lsEmpty] at hit
  · intro e he
    simp [lsEmpty] at he
  · simp [lsEmpty]
  · intro e he
    simp [lsEmpty] at he

theorem lsRun_wf [DecidableEq α] {f : α → ℚ} (k : ℕ) (ops : List (LSOp α))
    (hops : OpsPrioritized f ops) : LSWf f k (lsRun k ops) :=
  lsRunAux_wf ops (lsEmpty k) hops (lsEmpty_wf k)

end LimitedSetProofs

/-- C9: Bounded top-k collector — for every `k ≥ 1` and every finite
interleaving of `add`/`discard` operations (items carrying their intrinsic
priorities): the live-item count never exceeds `k`; an item evicted by an
overflowing `add` never has a strictly lower priority than any retained
item; and `limit()` is `+infinity` when fewer than `k` live items are held
and otherwise the worst (largest) priority among the live items. -/
theorem C9_bounded_topk {α : Type} [DecidableEq α] (f : α → ℚ) (k : ℕ) (hk : 1 ≤ k)
    (ops : List (LSOp α)) (hops : OpsPrioritized f ops) :
    (lsRun k ops).items.length ≤ k ∧
    (∀ it : α, ∀ x ∈ (lsRun k ops).items,
      x ∉ (lsRun k (ops ++ [LSOp.add (f it) it])).items →
      ∀ y ∈ (lsRun k (ops ++ [LSOp.add (f it) it])).items, f y ≤ f x) ∧
    ((lsRun k ops).items.length < k → (lsLimit (lsRun k ops)).1 = none) ∧
    (k ≤ (lsRun k ops).items.length → ∃ q, (lsLimit (lsRun k ops)).1 = some q ∧
      (∀ it2 ∈ (lsRun k ops).items, f it2 ≤ q) ∧
      ∃ it2 ∈ (lsRun k ops).items, f it2 = q) := by
  have hwf := lsRun_wf (f := f) k ops hops
  have hk7 := hwf.2.2.2.2.2.2
  refine ⟨?_, ?_, ?_, ?_⟩
  · have := hwf.2.2.2.1
    omega
  · intro it x hx hnx y hy
    have happ : lsRun k (ops ++ [LSOp.add (f it) it]) = lsAdd (f it) it (lsRun k ops) := by
      unfold lsRun
      rw [List.foldl_append]
      rfl
    rw [happ] at hnx hy
    exact (lsAdd_wf hwf it).2.1 x hx hnx y hy
  · intro hlt
    exact (lsLimit_val hwf).1 hlt
  · intro hge
    exact (lsLimit_val hwf).2 hge hk

theorem C9_bounded_topk_witness :
    (lsRun 2 [LSOp.add ((5 : ℤ) : ℚ) 5, LSOp.add ((3 : ℤ) : ℚ) 3]).items.length ≤ 2 ∧
    (∀ it : ℤ, ∀ x ∈ (lsRun 2 [LSOp.add ((5 : ℤ) : ℚ) 5, LSOp.add ((3 : ℤ) : ℚ) 3]).items,
      x ∉ (lsRun 2 ([LSOp.add ((5 : ℤ) : ℚ) 5, LSOp.add ((3 : ℤ) : ℚ) 3] ++
        [LSOp.add ((it : ℤ) : ℚ) it])).items →
      ∀ y ∈ (lsRun 2 ([LSOp.add ((5 : ℤ) : ℚ) 5, LSOp.add ((3 : ℤ) : ℚ) 3] ++
        [LSOp.add ((it : ℤ) : ℚ) it])).items, ((y : ℤ) : ℚ) ≤ ((x : ℤ) : ℚ)) ∧
    ((lsRun 2 [LSOp.add ((5 : ℤ) : ℚ) 5, LSOp.add ((3 : ℤ) : ℚ) 3]).items.length < 2 →
      (lsLimit (lsRun 2 [LSOp.add ((5 : ℤ) : ℚ) 5, LSOp.add ((3 : ℤ) : ℚ) 3])).1 = none) ∧
    (2 ≤ (lsRun 2 [LSOp.add ((5 : ℤ) : ℚ) 5, LSOp.add ((3 : ℤ) : ℚ) 3]).items.length →
      ∃ q, (lsLimit (lsRun 2 [LSOp.add ((5 : ℤ) : ℚ) 5, LSOp.add ((3 : ℤ) : ℚ) 3])).1 = some q ∧
      (∀ it2 ∈ (lsRun 2 [LSOp.add ((5 : ℤ) : ℚ) 5, LSOp.add ((3 : ℤ) : ℚ) 3]).items,
        ((it2 : ℤ) : ℚ) ≤ q) ∧
      ∃ it2 ∈ (lsRun 2 [LSOp.add ((5 : ℤ) : ℚ) 5, LSOp.add ((3 : ℤ) : ℚ) 3]).items,
        ((it2 : ℤ) : ℚ) = q) := by
  refine C9_bounded_topk (fun x : ℤ => (x : ℚ)) 2 (by omega)
    [LSOp.add ((5 : ℤ) : ℚ) 5, LSOp.add ((3 : ℤ) : ℚ) 3] ?_
  intro p it h
  simp only [List.mem_cons, List.mem_singleton, List.not_mem_nil, or_false] at h
  rcases h with h | h
  · rcases h with ⟨rfl, rfl⟩
    rfl
  · rcases h with ⟨rfl, rfl⟩
    rfl

/-! ### Structural facts about leaf nodes and subtrees (towards claim C1) -/

section KnnProofs

variable {V : Type}

theorem mem_leafNodesL {z : Node V} {cs : List (Node V)} :
    z ∈ leafNodesL cs ↔ ∃ c ∈ cs, z ∈ c.leafNodes := by
  induction cs with
  | nil => simp [leafNodesL]
  | cons c cs ih =>
    simp only [leafNodesL, List.mem_append, ih, List.mem_cons]
    constructor
    · rintro (h | ⟨c2, h1, h2⟩)
      · exact ⟨c, Or.inl rfl, h⟩
      · exact ⟨c2, Or.inr h1, h2⟩
    · rintro ⟨c2, h1 | h1, h2⟩
      · subst h1; exact Or.inl h2
      · exact Or.inr ⟨c2, h1, h2⟩

mutual
theorem leafNodes_shape :
    (n : Node V) → ∀ z ∈ n.leafNodes, ∃ r, z = Node.value r
  | .value r => by
    intro z hz
    simp only [Node.leafNodes, List.mem_singleton] at hz
    exact ⟨r, hz⟩
  | .parent r rad cs => by
    intro z hz
    simp only [Node.leafNodes] at hz
    exact leafNodesL_shape cs z hz

theorem leafNodesL_shape :
    (cs : List (Node V)) → ∀ z ∈ leafNodesL cs, ∃ r, z = Node.value r
  | [] => by intro z hz; simp [leafNodesL] at hz
  | c :: cs => by
    intro z hz
    simp only [leafNodesL, List.mem_append] at hz
    rcases hz with hz | hz
    · exact leafNodes_shape c z hz
    · exact leafNodesL_shape cs z hz
end

mutual
theorem values_eq_map_router :
    (n : Node V) → n.values = n.leafNodes.map Node.router
  | .value r => by simp [Node.values, Node.leafNodes, Node.router]
  | .parent r rad cs => by
    simp only [Node.values, Node.leafNodes]
    exact valuesL_eq_map_router cs

theorem valuesL_eq_map_router :
    (cs : List (Node V)) → valuesL cs = (leafNodesL cs).map Node.router
  | [] => by simp [valuesL, leafNodesL]
  | c :: cs => by
    simp only [valuesL, leafNodesL, List.map_append]
    rw [values_eq_map_router c, valuesL_eq_map_router cs]
end

mutual
theorem leafNodes_subset_subnodes :
    (n : Node V) → ∀ z ∈ n.leafNodes, z ∈ n.subnodes
  | .value r => by
    intro z hz
    simpa [Node.leafNodes, Node.subnodes] using hz
  | .parent r rad cs => by
    intro z hz
    simp only [Node.leafNodes] at hz
    simp only [Node.subnodes, List.mem_cons]
    exact Or.inr (leafNodesL_subset_subnodesL cs z hz)

theorem leafNodesL_subset_subnodesL :
    (cs : List (Node V)) → ∀ z ∈ leafNodesL cs, z ∈ subnodesL cs
  | [] => by intro z hz; simp [leafNodesL] at hz
  | c :: cs => by
    intro z hz
    simp only [leafNodesL, List.mem_append] at hz
    simp only [subnodesL, List.mem_append]
    rcases hz with hz | hz
    · exact Or.inl (leafNodes_subset_subnodes c z hz)
    · exact Or.inr (leafNodesL_subset_subnodesL cs z hz)
end

mutual
theorem mem_leafNodes_of_subnodes :
    (n : Node V) → ∀ x ∈ n.subnodes, x.isParent = false → x ∈ n.leafNodes
  | .value r => by
    intro x hx _
    simpa [Node.subnodes, Node.leafNodes] using hx
  | .parent r rad cs => by
    intro x hx hleaf
    simp only [Node.subnodes, List.mem_cons] at hx
    rcases hx with rfl | hx
    · simp [Node.isParent] at hleaf
    · simp only [Node.leafNodes]
      exact mem_leafNodesL_of_subnodesL cs x hx hleaf

theorem mem_leafNodesL_of_subnodesL :
    (cs : List (Node V)) → ∀ x ∈ subnodesL cs, x.isParent = false → x ∈ leafNodesL cs
  | [] => by intro x hx; simp [subnodesL] at hx
  | c :: cs => by
    intro x hx hleaf
    simp only [subnodesL, List.mem_append] at hx
    simp only [leafNodesL, List.mem_append]
    rcases hx with hx | hx
    · exact Or.inl (mem_leafNodes_of_subnodes c x hx hleaf)
    · exact Or.inr (mem_leafNodesL_of_subnodesL cs x hx hleaf)
end

mutual
theorem leafNodes_sub_of_mem_subnodes :
    (n : Node V) → ∀ x ∈ n.subnodes, ∀ z ∈ x.leafNodes, z ∈ n.leafNodes
  | .value r => by
    intro x hx z hz
    simp only [Node.subnodes, List.mem_singleton] at hx
    subst hx
    exact hz
  | .parent r rad cs => by
    intro x hx z hz
    simp only [Node.subnodes, List.mem_cons] at hx
    rcases hx with rfl | hx
    · exact hz
    · rcases mem_subnodesL.mp hx with ⟨c, hc, hxc⟩
      simp only [Node.leafNodes]
      exact mem_leafNodesL.mpr ⟨c, hc, leafNodes_sub_of_mem_subnodes c x hxc z hz⟩
end

mutual
theorem subnodes_trans :
    (n : Node V) → ∀ x ∈ n.subnodes, ∀ y ∈ x.subnodes, y ∈ n.subnodes
  | .value r => by
    intro x hx y hy
    simp only [Node.subnodes, List.mem_singleton] at hx
    subst hx
    exact hy
  | .parent r rad cs => by
    intro x hx y hy
    simp only [Node.subnodes, List.mem_cons] at hx
    rcases hx with rfl | hx
    · exact hy
    · rcases mem_subnodesL.mp hx with ⟨c, hc, hxc⟩
      simp only [Node.subnodes, List.mem_cons]
      exact Or.inr (mem_subnodesL.mpr ⟨c, hc, subnodes_trans c x hxc y hy⟩)
end

mutual
theorem sizeOf_le_of_mem_subnodes :
    (n : Node V) → ∀ x ∈ n.subnodes, sizeOf x ≤ sizeOf n
  | .value r => by
    intro x hx
    simp only [Node.subnodes, List.mem_singleton] at hx
    subst hx
    exact le_refl _
  | .parent r rad cs => by
    intro x hx
    simp only [Node.subnodes, List.mem_cons] at hx
    rcases hx with rfl | hx
    · exact le_refl _
    · have h := sizeOf_lt_of_mem_subnodesL cs x hx
      simp only [Node.parent.sizeOf_spec]
      omega

theorem sizeOf_lt_of_mem_subnodesL :
    (cs : List (Node V)) → ∀ x ∈ subnodesL cs, sizeOf x < sizeOf cs
  | [] => by intro x hx; simp [subnodesL] at hx
  | c :: cs => by
    intro x hx
    simp only [subnodesL, List.mem_append] at hx
    simp only [List.cons.sizeOf_spec]
    rcases hx with hx | hx
    · have := sizeOf_le_of_mem_subnodes c x hx
      omega
    · have := sizeOf_lt_of_mem_subnodesL cs x hx
      omega
end

theorem mem_subnodes_of_child {n c : Node V} (hc : c ∈ n.childList) : c ∈ n.subnodes := by
  cases n with
  | value r => simp [Node.childList] at hc
  | parent r rad cs =>
    simp only [Node.childList] at hc
    simp only [Node.subnodes, List.mem_cons]
    exact Or.inr (mem_subnodesL.mpr ⟨c, hc, self_mem_subnodes c⟩)

theorem sizeOf_lt_of_child {n c : Node V} (hc : c ∈ n.childList) :
    ∀ x ∈ c.subnodes, sizeOf x < sizeOf n := by
  intro x hx
  cases n with
  | value r => simp [Node.childList] at hc
  | parent r rad cs =>
    simp only [Node.childList] at hc
    have h1 : x ∈ subnodesL cs := mem_subnodesL.mpr ⟨c, hc, hx⟩
    have h2 := sizeOf_lt_of_mem_subnodesL cs x h1
    simp only [Node.parent.sizeOf_spec]
    omega

theorem not_self_subnode_of_child {n c : Node V} (hc : c ∈ n.childList) :
    n ∉ c.subnodes := by
  intro hmem
  exact absurd (sizeOf_lt_of_child hc n hmem) (lt_irrefl _)

theorem child_ne_self {n c : Node V} (hc : c ∈ n.childList) : c ≠ n := by
  intro hcn
  subst hcn
  exact not_self_subnode_of_child hc (self_mem_subnodes c)

theorem isParent_false_shape {x : Node V} (h : x.isParent = false) :
    ∃ r, x = Node.value r := by
  cases x with
  | value r => exact ⟨r, rfl⟩
  | parent r rad cs => simp [Node.isParent] at h

theorem firstLeaf_mem {cap : ℕ} {n : Node V} (hwf : WfN cap n) :
    firstLeaf n ∈ n.leafNodes := by
  induction hwf with
  | value r => simp [firstLeaf, Node.leafNodes]
  | parent r rad cs hne hlen hhom hall ih =>
    cases cs with
    | nil => exact absurd rfl hne
    | cons c cs' =>
      have h1 : firstLeaf (Node.parent r rad (c :: cs')) = firstLeaf c := by
        simp [firstLeaf]
      rw [h1]
      simp only [Node.leafNodes, leafNodesL, List.mem_append]
      exact Or.inl (ih c (List.mem_cons_self _ _))

theorem router_mem_values {x z : Node V} (hz : z ∈ x.leafNodes) :
    z.router ∈ x.values := by
  rw [values_eq_map_router x]
  exact List.mem_map.mpr ⟨z, hz, rfl⟩

theorem valuesL_nodup_mem {cs : List (Node V)} (hnd : (valuesL cs).Nodup) :
    ∀ c ∈ cs, (Node.values c).Nodup := by
  induction cs with
  | nil => intro c hc; simp at hc
  | cons c0 cs ih =>
    intro c hc
    simp only [valuesL] at hnd
    rcases List.nodup_append.mp hnd with ⟨h1, h2, _⟩
    rcases List.mem_cons.mp hc with rfl | hc
    · exact h1
    · exact ih h2 c hc

mutual
theorem values_nodup_of_mem_subnodes :
    (n : Node V) → (Node.values n).Nodup → ∀ m ∈ n.subnodes, (Node.values m).Nodup
  | .value r => by
    intro hnd m hm
    simp only [Node.subnodes, List.mem_singleton] at hm
    subst hm
    exact hnd
  | .parent r rad cs => by
    intro hnd m hm
    simp only [Node.subnodes, List.mem_cons] at hm
    rcases hm with rfl | hm
    · exact hnd
    · simp only [Node.values] at hnd
      rcases mem_subnodesL.mp hm with ⟨c, hc, hmc⟩
      exact values_nodup_of_mem_subnodes c (valuesL_nodup_mem hnd c hc) m hmc
end

/-- Distinct members of a children list with `Nodup` concatenated values and
nonempty value sets have disjoint value sets (and the list itself is
`Nodup`). -/
theorem children_distinct {cs : List (Node V)} (hnd : (valuesL cs).Nodup)
    (hne : ∀ c ∈ cs, Node.values c ≠ []) :
    cs.Nodup ∧ ∀ c1 ∈ cs, ∀ c2 ∈ cs,
      (∃ z, z ∈ c1.values ∧ z ∈ c2.values) → c1 = c2 := by
  induction cs with
  | nil => exact ⟨List.nodup_nil, by intro c1 hc1; simp at hc1⟩
  | cons c0 cs ih =>
    simp only [valuesL] at hnd
    rcases List.nodup_append.mp hnd with ⟨h1, h2, hdisj⟩
    rcases ih h2 (fun c hc => hne c (List.mem_cons_of_mem _ hc)) with ⟨ihnd, ihdj⟩
    have hnotail : ∀ c ∈ cs, ∀ z, z ∈ c0.values → z ∈ c.values → False := by
      intro c hc z hz0 hzc
      exact hdisj hz0 (mem_valuesL.mpr ⟨c, hc, hzc⟩)
    refine ⟨?_, ?_⟩
    · refine List.nodup_cons.mpr ⟨?_, ihnd⟩
      intro hmem
      rcases List.exists_mem_of_ne_nil _ (hne c0 (List.mem_cons_self _ _)) with ⟨z, hz⟩
      exact hnotail c0 hmem z hz hz
    · intro c1 hc1 c2 hc2 hover
      rcases List.mem_cons.mp hc1 with h1e | h1t
      · rcases List.mem_cons.mp hc2 with h2e | h2t
        · rw [h1e, h2e]
        · rcases hover with ⟨z, hz1, hz2⟩
          rw [h1e] at hz1
          exact (hnotail c2 h2t z hz1 hz2).elim
      · rcases List.mem_cons.mp hc2 with h2e | h2t
        · rcases hover with ⟨z, hz1, hz2⟩
          rw [h2e] at hz2
          exact (hnotail c1 h1t z hz2 hz1).elim
        · exact ihdj c1 h1t c2 h2t hover

theorem OverlapEq_mono {l l' : List (Node V)} (h : OverlapEq l)
    (hsub : ∀ x ∈ l', x ∈ l) : OverlapEq l' :=
  fun a ha b hb hover => h a (hsub a ha) b (hsub b hb) hover

theorem subnodesL_length (cs : List (Node V)) :
    (subnodesL cs).length = (cs.map sizeN).sum := by
  induction cs with
  | nil => simp [subnodesL]
  | cons c cs ih =>
    simp only [subnodesL, List.length_append, List.map_cons, List.sum_cons, ih]
    rfl

theorem sizeN_parent (r : V) (rad : ℚ) (cs : List (Node V)) :
    sizeN (Node.parent r rad cs) = 1 + (cs.map sizeN).sum := by
  simp only [sizeN, Node.subnodes, List.length_cons, subnodesL_length]
  omega

theorem one_le_sizeN (n : Node V) : 1 ≤ sizeN n := by
  cases n with
  | value r => simp [sizeN, Node.subnodes]
  | parent r rad cs => simp [sizeN, Node.subnodes]

theorem firstLeaf_of_leaf {x : Node V} (h : x.isParent = false) : firstLeaf x = x := by
  rcases isParent_false_shape h with ⟨r, rfl⟩
  simp [firstLeaf]

/-! ### Soundness of the pruning bounds under the covering invariant -/

theorem maxDistance_sound {d : V → V → ℚ} (hm : IsMetric d) {x z : Node V}
    (hcov : Cov d x) (hz : z ∈ x.leafNodes) (q : V) :
    d q z.router ≤ maxDistance d x q := by
  have h1 : d x.router z.router ≤ x.radius :=
    cov_values hm hcov z.router (router_mem_values hz)
  have h2 : d q z.router ≤ d q x.router + d x.router z.router := hm.triangle _ _ _
  have h3 : d q x.router = d x.router q := hm.symm _ _
  unfold maxDistance
  linarith

theorem minDistance_sound {d : V → V → ℚ} (hm : IsMetric d) {x z : Node V}
    (hcov : Cov d x) (hz : z ∈ x.leafNodes) (q : V) :
    minDistance d x q ≤ d q z.router := by
  have h1 : d x.router z.router ≤ x.radius :=
    cov_values hm hcov z.router (router_mem_values hz)
  have h2 : d x.router q ≤ d x.router z.router + d z.router q := hm.triangle _ _ _
  have h3 : d z.router q = d q z.router := hm.symm _ _
  have h4 : 0 ≤ d q z.router := hm.nonneg _ _
  unfold minDistance
  rw [qmax_eq_max]
  refine max_le h4 ?_
  linarith

theorem guard1_sound {d : V → V → ℚ} (hm : IsMetric d) {c z : Node V}
    (hcov : Cov d c) (hz : z ∈ c.leafNodes) (w q : V) :
    qabs (d w q - d w c.router) - c.radius ≤ d q z.router := by
  have h1 : d c.router z.router ≤ c.radius :=
    cov_values hm hcov z.router (router_mem_values hz)
  have hA : d w q ≤ d w z.router + d z.router q := hm.triangle _ _ _
  have hA2 : d w z.router ≤ d w c.router + d c.router z.router := hm.triangle _ _ _
  have hB : d w c.router ≤ d w z.router + d z.router c.router := hm.triangle _ _ _
  have hB2 : d w z.router ≤ d w q + d q z.router := hm.triangle _ _ _
  have hs1 : d z.router q = d q z.router := hm.symm _ _
  have hs2 : d z.router c.router = d c.router z.router := hm.symm _ _
  rw [qabs_eq_abs, sub_le_iff_le_add]
  refine abs_le.mpr ⟨?_, ?_⟩ <;> linarith

/-- Rebuild a justification set from the live items: one leaf per item. -/
theorem rebuildS {d : V → V → ℚ} {cap : ℕ} {rt : Node V} (hm : IsMetric d)
    (hwfrt : WfN cap rt) (hcovrt : Cov d rt) (q : V)
    (its fns pend : List (Node V)) (B : ℚ)
    (hsub : ∀ x ∈ its, x ∈ rt.subnodes)
    (hovl : ∀ a ∈ its, ∀ b ∈ its, (∃ z, z ∈ a.values ∧ z ∈ b.values) → a = b)
    (hnodup : its.Nodup)
    (hpar : ∀ x ∈ its, x.isParent = true → x ∈ fns)
    (hb : ∀ x ∈ its, maxDistance d x q ≤ B) :
    ∃ S : List (Node V), S.Nodup ∧ S.length = its.length ∧
      ∀ z ∈ S, z ∈ rt.leafNodes ∧ NotLost its fns pend z ∧ d q z.router ≤ B := by
  refine ⟨its.map firstLeaf, ?_, by simp, ?_⟩
  · refine List.Nodup.map_on ?_ hnodup
    intro x1 h1 x2 h2 heq
    have hf1 : firstLeaf x1 ∈ x1.leafNodes :=
      firstLeaf_mem (wfn_of_mem_subnodes hwfrt x1 (hsub x1 h1))
    have hf2 : firstLeaf x2 ∈ x2.leafNodes :=
      firstLeaf_mem (wfn_of_mem_subnodes hwfrt x2 (hsub x2 h2))
    refine hovl x1 h1 x2 h2 ⟨(firstLeaf x1).router, router_mem_values hf1, ?_⟩
    rw [heq]
    exact router_mem_values hf2
  · intro z hz
    rcases List.mem_map.mp hz with ⟨x, hx, rfl⟩
    have hwfx := wfn_of_mem_subnodes hwfrt x (hsub x hx)
    have hfl : firstLeaf x ∈ x.leafNodes := firstLeaf_mem hwfx
    refine ⟨leafNodes_sub_of_mem_subnodes rt x (hsub x hx) _ hfl, ?_, ?_⟩
    · rcases hb2 : x.isParent with _ | _
      · rw [firstLeaf_of_leaf hb2]
        exact Or.inl hx
      · exact Or.inr (Or.inl ⟨x, hpar x hx hb2, hfl⟩)
    · calc d q (firstLeaf x).router ≤ maxDistance d x q :=
        maxDistance_sound hm (cov_of_mem_subnodes hcovrt x (hsub x hx)) hfl q
      _ ≤ B := hb x hx

/-! ### Additional `LimitedSet` facts for the search -/

theorem leLim_false {x : ℚ} {o : Option ℚ} (h : leLim x o = false) :
    ∃ L, o = some L ∧ L < x := by
  cases o with
  | none => simp [leLim] at h
  | some L =>
    refine ⟨L, rfl, ?_⟩
    simp only [leLim, decide_eq_false_iff_not, not_le] at h
    exact h

theorem pqNodes_push {p : ℚ} {x : Node V} {pq : PQueue (Node V)} :
    pqNodes (pqPush p x pq) = pqNodes pq ++ [x] := by
  simp [pqNodes, pqPush]

theorem pqPop_inv {pq : PQueue (Node V)} {pe : ℚ × Node V} {pq1 : PQueue (Node V)}
    (h : pqPop pq = some (pe, pq1)) :
    ∃ e, popMinE pq.items = some (e, pq1.items) ∧ pe.2 = e.2.2 ∧
      (pqNodes pq).Perm (pe.2 :: pqNodes pq1) := by
  unfold pqPop at h
  rcases hp : popMinE pq.items with _ | ⟨⟨e, rest⟩⟩
  · rw [hp] at h
    cases h
  · rw [hp] at h
    simp only [Option.some.injEq, Prod.mk.injEq] at h
    rcases h with ⟨h1, h2⟩
    refine ⟨e, by rw [← h2], by rw [← h1], ?_⟩
    have hperm := (popMinE_spec hp).2.1
    have := hperm.map (fun e : Entry (Node V) => e.2.2)
    simp only [List.map_cons] at this
    rw [← h1, ← h2]
    exact this

/-- One live item per heap entry: iteration enumerates exactly the live
items when the heap holds no duplicate items. -/
theorem lsIter_perm {α : Type} [DecidableEq α] {s : LSet α}
    (hw2 : ∀ it ∈ s.items, ∃ e ∈ s.pq, e.2.2 = it)
    (hnd : s.items.Nodup)
    (hpnd : (s.pq.map (fun e => e.2.2)).Nodup) :
    (lsIter s).Perm s.items := by
  have hiter_nd : (lsIter s).Nodup := by
    unfold lsIter
    exact hpnd.sublist (List.Sublist.map _ (List.filter_sublist s.pq))
  have hmem : ∀ x, x ∈ lsIter s ↔ x ∈ s.items := by
    intro x
    unfold lsIter
    constructor
    · intro hx
      rcases List.mem_map.mp hx with ⟨e, he, rfl⟩
      have := List.of_mem_filter he
      simpa using this
    · intro hx
      rcases hw2 x hx with ⟨e, he, rfl⟩
      refine List.mem_map.mpr ⟨e, ?_, rfl⟩
      refine List.mem_filter.mpr ⟨he, by simpa using hx⟩
  exact (List.perm_ext_iff_of_nodup hiter_nd hnd).mpr hmem

/-- `lsAdd` with an item's intrinsic priority: well-formedness, the new
live set, exact-size and domination facts when an item is missing
afterwards, and the heap-entry accounting. -/
theorem lsAdd_knn {α : Type} [DecidableEq α] {f : α → ℚ} {kk : ℕ} {s : LSet α}
    (hwf : LSWf f kk s) (hk : 1 ≤ kk) (it : α) :
    LSWf f kk (lsAdd (f it) it s) ∧
    (∀ x ∈ (lsAdd (f it) it s).items, x ∈ s.items ∨ x = it) ∧
    (∀ x ∈ s.items, x ∉ (lsAdd (f it) it s).items →
      (lsAdd (f it) it s).items.length = kk ∧
      ∀ y ∈ (lsAdd (f it) it s).items, f y ≤ f x) ∧
    (it ∉ (lsAdd (f it) it s).items →
      (lsAdd (f it) it s).items.length = kk ∧
      ∀ y ∈ (lsAdd (f it) it s).items, f y ≤ f it) ∧
    (∃ extra, (s.pq ++ [(-(f it), s.count, it)]).Perm ((lsAdd (f it) it s).pq ++ extra)) := by
  have hsnd := lsLimit_snd s
  have hwf1 : LSWf f kk { s with pq := lsClean s.items s.pq } := lsClean_wf hwf
  rcases lsClean_spec s.items s.pq with ⟨hc1, hc2, hc3, ex0, hc4⟩
  simp only [lsAdd]
  rw [hsnd]
  by_cases hg : leLim (f it) (lsLimit s).1 = true
  · rw [if_pos hg]
    obtain ⟨w1, w2, w3, w4, w5, w6, w7⟩ := hwf1
    dsimp only at w1 w2 w3 w4 w5 w6 w7
    set cpq := lsClean s.items s.pq with hcpq
    set items1 := if it ∈ s.items then s.items else s.items ++ [it] with hitems1
    set newE : Entry α := (-(f it), s.count, it) with hnewE
    set pq2 := cpq ++ [newE] with hpq2
    have hsub : ∀ x ∈ items1, x ∈ s.items ∨ x = it := by
      intro x hx
      rw [hitems1] at hx
      by_cases hmm : it ∈ s.items
      · rw [if_pos hmm] at hx
        exact Or.inl hx
      · rw [if_neg hmm] at hx
        rcases List.mem_append.mp hx with hx | hx
        · exact Or.inl hx
        · simp only [List.mem_singleton] at hx
          exact Or.inr hx
    have hsup : ∀ x ∈ s.items, x ∈ items1 := by
      intro x hx
      rw [hitems1]
      by_cases hmm : it ∈ s.items
      · rw [if_pos hmm]
        exact hx
      · rw [if_neg hmm]
        exact List.mem_append_left _ hx
    have hitmem : it ∈ items1 := by
      rw [hitems1]
      by_cases hmm : it ∈ s.items
      · rw [if_pos hmm]
        exact hmm
      · rw [if_neg hmm]
        exact List.mem_append_right _ (List.mem_singleton_self it)
    have hnodup1 : items1.Nodup := by
      rw [hitems1]
      by_cases hmm : it ∈ s.items
      · rw [if_pos hmm]
        exact w1
      · rw [if_neg hmm]
        rw [List.nodup_append]
        exact ⟨w1, List.nodup_singleton it, by
          intro a ha hb
          simp only [List.mem_singleton] at hb
          subst hb
          exact hmm ha⟩
    have hlen1 : items1.length ≤ s.items.length + 1 := by
      rw [hitems1]
      by_cases hmm : it ∈ s.items
      · rw [if_pos hmm]
        omega
      · rw [if_neg hmm]
        simp
    have hW2 : ∀ x ∈ items1, ∃ e ∈ pq2, e.2.2 = x := by
      intro x hx
      by_cases hxit : x = it
      · exact ⟨newE, List.mem_append_right _ (List.mem_singleton_self _), hxit.symm⟩
      · rcases hsub x hx with hxs | hxs
        · rcases w2 x hxs with ⟨e, he, hee⟩
          exact ⟨e, List.mem_append_left _ he, hee⟩
        · exact absurd hxs hxit
    have hW3 : ∀ e ∈ pq2, e.1 = -(f e.2.2) := by
      intro e he
      rcases List.mem_append.mp he with he | he
      · exact w3 e he
      · simp only [List.mem_singleton] at he
        subst he
        rfl
    have hW5 : ∀ e ∈ pq2, e.2.1 < s.count + 1 := by
      intro e he
      rcases List.mem_append.mp he with he | he
      · have := w5 e he
        omega
      · simp only [List.mem_singleton] at he
        subst he
        simp only [hnewE]
        omega
    have hW6 : List.Pairwise (fun e1 e2 : Entry α => e1.2.1 ≠ e2.2.1) pq2 := by
      rw [hpq2, List.pairwise_append]
      refine ⟨w6, List.pairwise_singleton _ _, ?_⟩
      intro e1 h1 e2 h2
      simp only [List.mem_singleton] at h2
      subst h2
      have := w5 e1 h1
      simp only [hnewE]
      omega
    have hPermPush : (s.pq ++ [newE]).Perm (pq2 ++ ex0) := by
      refine (hc4.append_right [newE]).trans ?_
      rw [hpq2]
      rw [← Multiset.coe_eq_coe]
      simp only [← Multiset.coe_add]
      abel
    by_cases hover : s.k < items1.length
    · rw [if_pos hover]
      rcases hp2 : popMinE pq2 with _ | ⟨⟨e, rest⟩⟩
      · exact absurd (popMinE_none.mp hp2) (by simp [hpq2])
      · dsimp only
        rcases popMinE_spec hp2 with ⟨hem, hperm2, hmin2⟩
        have hrestsub : ∀ x ∈ rest, x ∈ pq2 := by
          intro x hx
          exact hperm2.mem_iff.mpr (List.mem_cons_of_mem e hx)
        have hlive : e.2.2 ∈ items1 := by
          rcases List.mem_append.mp hem with hecl | henew
          · rcases hpc : popMinE cpq with _ | ⟨⟨e1, r1⟩⟩
            · rw [popMinE_none.mp hpc] at hecl
              exact absurd hecl (List.not_mem_nil e)
            · rcases popMinE_spec hpc with ⟨he1m, _, hmin1⟩
              have he1live : e1.2.2 ∈ s.items := hc3 e1 r1 hpc
              have hn1 : ¬ entryLt e e1 := hmin1 e hecl
              have hn2 : ¬ entryLt e1 e := hmin2 e1 (List.mem_append_left _ he1m)
              have hboth := not_entryLt_both hn1 hn2
              by_cases heq : e = e1
              · subst heq
                exact hsup _ he1live
              · exfalso
                have hnecount := List.Pairwise.forall countNe_symm w6 hecl he1m heq
                exact hnecount hboth.2
          · simp only [List.mem_singleton] at henew
            subst henew
            exact hitmem
        have hewf : e.1 = -(f e.2.2) := hW3 e hem
        have hlenitems1 : items1.length = s.k + 1 := by
          have := w4
          omega
        have hlenerase : (items1.erase e.2.2).length = kk := by
          rw [List.length_erase_of_mem hlive, hlenitems1]
          omega
        have hdominate : ∀ y ∈ items1.erase e.2.2, f y ≤ f e.2.2 := by
          intro y hy
          have hy1 : y ∈ items1 := List.mem_of_mem_erase hy
          rcases hW2 y hy1 with ⟨ey, hey, heyi⟩
          have hney := hmin2 ey hey
          rw [not_entryLt_iff] at hney
          have h1 := hney.1
          rw [hewf, hW3 ey hey, heyi] at h1
          linarith
        refine ⟨⟨hnodup1.erase _, ?_, ?_, ?_, ?_, ?_, w7⟩, ?_, ?_, ?_, ?_⟩
        · intro x hx
          have hx1 : x ∈ items1 := List.mem_of_mem_erase hx
          have hxne : x ≠ e.2.2 := ((List.Nodup.mem_erase_iff hnodup1).mp hx).1
          rcases hW2 x hx1 with ⟨ex, hex, hexi⟩
          have := hperm2.mem_iff.mp hex
          rcases List.mem_cons.mp this with rfl | hexr
          · exact absurd hexi.symm hxne
          · exact ⟨ex, hexr, hexi⟩
        · intro e2 he2
          exact hW3 e2 (hrestsub e2 he2)
        · have hgoal : (items1.erase e.2.2).length ≤ s.k := by
            rw [hlenerase]
            omega
          exact hgoal
        · intro e2 he2
          exact hW5 e2 (hrestsub e2 he2)
        · have := (hperm2.pairwise_iff (fun h hc => h hc.symm)).mp hW6
          exact List.Pairwise.of_cons this
        · intro x hx
          exact hsub x (List.mem_of_mem_erase hx)
        · intro x hx hnx
          have hx1 : x ∈ items1 := hsup x hx
          have hxe : x = e.2.2 := by
            by_contra hxe
            exact hnx ((List.Nodup.mem_erase_iff hnodup1).mpr ⟨hxe, hx1⟩)
          refine ⟨hlenerase, ?_⟩
          intro y hy
          rw [hxe]
          exact hdominate y hy
        · intro hnit
          have hite : it = e.2.2 := by
            by_contra hne
            exact hnit ((List.Nodup.mem_erase_iff hnodup1).mpr ⟨hne, hitmem⟩)
          refine ⟨hlenerase, ?_⟩
          intro y hy
          rw [hite]
          exact hdominate y hy
        · refine ⟨e :: ex0, ?_⟩
          refine hPermPush.trans ?_
          refine (hperm2.append_right ex0).trans ?_
          rw [show e :: rest = [e] ++ rest by simp,
            show e :: ex0 = [e] ++ ex0 by simp]
          rw [← Multiset.coe_eq_coe]
          simp only [← Multiset.coe_add]
          abel
    · rw [if_neg hover]
      have hlenk : items1.length ≤ s.k := by omega
      refine ⟨⟨hnodup1, hW2, hW3, hlenk, hW5, hW6, w7⟩, hsub, ?_, ?_, ⟨ex0, hPermPush⟩⟩
      · intro x hx hnx
        exact absurd (hsup x hx) hnx
      · intro hnit
        exact absurd hitmem hnit
  · rw [if_neg hg]
    obtain ⟨w1, w2, w3, w4, w5, w6, w7⟩ := hwf1
    rcases leLim_false (Bool.not_eq_true _ ▸ hg : leLim (f it) (lsLimit s).1 = false)
      with ⟨L, hL, hLlt⟩
    have hgeg : kk ≤ s.items.length := by
      by_contra hcon
      push_neg at hcon
      have := (lsLimit_val hwf).1 hcon
      rw [this] at hL
      cases hL
    have hlenex : s.items.length = kk := by
      have h4 := hwf.2.2.2.1
      have h7 := hwf.2.2.2.2.2.2
      omega
    have hbnd : ∀ y ∈ s.items, f y ≤ f it := by
      rcases (lsLimit_val hwf).2 hgeg hk with ⟨L2, hL2, hall, _⟩
      rw [hL] at hL2
      injection hL2 with hL2e
      intro y hy
      have := hall y hy
      rw [← hL2e] at this
      linarith
    refine ⟨⟨w1, w2, w3, w4, w5, w6, w7⟩, ?_, ?_, ?_, ?_⟩
    · intro x hx
      exact Or.inl hx
    · intro x hx hnx
      exact absurd hx hnx
    · intro _
      exact ⟨hlenex, hbnd⟩
    · refine ⟨ex0 ++ [(-(f it), s.count, it)], ?_⟩
      dsimp only
      rw [← List.append_assoc]
      exact hc4.append_right _

theorem isParent_true_shape {x : Node V} (h : x.isParent = true) :
    ∃ r rad cs, x = Node.parent r rad cs := by
  cases x with
  | value r => simp [Node.isParent] at h
  | parent r rad cs => exact ⟨r, rad, cs, rfl⟩

theorem maxDistance_value {d : V → V → ℚ} (hm : IsMetric d) (r q : V) :
    maxDistance d (Node.value r) q = d q (Node.value r).router := by
  show d (Node.value r).router q + (Node.value r).radius = d q (Node.value r).router
  rw [router_value, radius_value, add_zero, hm.symm r q]

/-! ### Preservation of the search invariant -/

section KnnInv

variable {d : V → V → ℚ} {cap kk : ℕ} {rt : Node V} {q : V} [DecidableEq V]

theorem KInv_clean {pq : PQueue (Node V)} {res : LSet (Node V)} {pend : List (Node V)}
    (hinv : KInv d q kk rt pq res pend) :
    KInv d q kk rt pq { res with pq := lsClean res.items res.pq } pend := by
  rcases lsClean_spec res.items res.pq with ⟨c1, _, _, ex, c4⟩
  refine ⟨lsClean_wf hinv.lswf, hinv.fr_mem, hinv.fr_nodup, hinv.it_mem, hinv.pend_mem,
    hinv.par_fr, hinv.ovl, hinv.pend_fresh, hinv.pend_nodup, ?_, ?_, ?_, hinv.just⟩
  · intro e he x hx
    exact hinv.stale_pend e (c1 e he) x hx
  · intro e he x hx c hc
    exact hinv.stale_fr e (c1 e he) x hx c hc
  · have := (c4.map (fun e : Entry (Node V) => e.2.2)).nodup_iff.mp hinv.res_nodup
    rw [List.map_append] at this
    exact (List.nodup_append.mp this).1

omit [DecidableEq V] in
theorem KInv_drop_head {pq : PQueue (Node V)} {res : LSet (Node V)} {c : Node V}
    {cs : List (Node V)} (hinv : KInv d q kk rt pq res (c :: cs))
    (hjust : ∀ z ∈ c.leafNodes, z ∈ rt.leafNodes →
      ¬ NotLost res.items (pqNodes pq) cs z →
      JustSet d q kk rt res.items (pqNodes pq) cs z) :
    KInv d q kk rt pq res cs := by
  refine ⟨hinv.lswf, hinv.fr_mem, hinv.fr_nodup, hinv.it_mem,
    fun x hx => hinv.pend_mem x (List.mem_cons_of_mem _ hx), hinv.par_fr, ?_,
    fun x hx => hinv.pend_fresh x (List.mem_cons_of_mem _ hx),
    (List.nodup_cons.mp hinv.pend_nodup).2,
    fun e he x hx => hinv.stale_pend e he x (List.mem_cons_of_mem _ hx),
    hinv.stale_fr, hinv.res_nodup, ?_⟩
  · refine OverlapEq_mono hinv.ovl ?_
    intro x hx
    simp only [List.mem_append, List.mem_cons] at hx ⊢
    tauto
  · intro y hy hlost
    by_cases hold : NotLost res.items (pqNodes pq) (c :: cs) y
    · rcases hold with h | h | ⟨x, hx, hyx⟩
      · exact absurd (Or.inl h) hlost
      · exact absurd (Or.inr (Or.inl h)) hlost
      · rcases List.mem_cons.mp hx with rfl | hx
        · exact hjust y hyx hy hlost
        · exact absurd (Or.inr (Or.inr ⟨x, hx, hyx⟩)) hlost
    · rcases hinv.just y hy hold with ⟨S, hSnd, hSlen, hS⟩
      by_cases hall : ∀ z ∈ S, NotLost res.items (pqNodes pq) cs z
      · exact ⟨S, hSnd, hSlen, fun z hz => ⟨(hS z hz).1, hall z hz, (hS z hz).2.2⟩⟩
      · push_neg at hall
        rcases hall with ⟨z0, hz0S, hz0lost⟩
        rcases hS z0 hz0S with ⟨hz0leaf, hz0old, hz0le⟩
        have hz0c : z0 ∈ c.leafNodes := by
          rcases hz0old with h | h | ⟨x, hx, hzx⟩
          · exact absurd (Or.inl h) hz0lost
          · exact absurd (Or.inr (Or.inl h)) hz0lost
          · rcases List.mem_cons.mp hx with rfl | hx
            · exact hzx
            · exact absurd (Or.inr (Or.inr ⟨x, hx, hzx⟩)) hz0lost
        rcases hjust z0 hz0c hz0leaf hz0lost with ⟨S2, h2nd, h2len, h2⟩
        exact ⟨S2, h2nd, h2len, fun w hw =>
          ⟨(h2 w hw).1, (h2 w hw).2.1, le_trans (h2 w hw).2.2 hz0le⟩⟩

/-- Pruning a child is safe when the collector limit is finite and every
leaf beneath the child sits strictly beyond it. -/
theorem KInv_prune_of_limit (hm : IsMetric d) (hwfrt : WfN cap rt) (hcovrt : Cov d rt)
    (hkk : 1 ≤ kk) {pq : PQueue (Node V)} {res : LSet (Node V)} {c : Node V}
    {cs : List (Node V)} (hinv : KInv d q kk rt pq res (c :: cs))
    {L : ℚ} (hLv : (lsLimit res).1 = some L)
    (hLlt : ∀ z ∈ c.leafNodes, L < d q z.router) :
    KInv d q kk rt pq (lsLimit res).2 cs := by
  rw [lsLimit_snd res]
  refine KInv_drop_head (KInv_clean hinv) ?_
  intro z hzc hzleaf _
  have hwf := hinv.lswf
  have hge : kk ≤ res.items.length := by
    by_contra hcon
    push_neg at hcon
    have := (lsLimit_val hwf).1 hcon
    rw [this] at hLv
    cases hLv
  have hlen : res.items.length = kk := by
    have h4 := hwf.2.2.2.1
    have h7 := hwf.2.2.2.2.2.2
    omega
  rcases (lsLimit_val hwf).2 hge hkk with ⟨L2, hL2, hall, _⟩
  rw [hLv] at hL2
  injection hL2 with hL2e
  rcases rebuildS hm hwfrt hcovrt q res.items (pqNodes pq) cs (d q z.router)
      hinv.it_mem
      (fun a ha b hb hov => hinv.ovl a (by simp [ha]) b (by simp [hb]) hov)
      hwf.1 hinv.par_fr
      (fun x hx => le_of_lt (lt_of_le_of_lt (hL2e ▸ hall x hx) (hLlt z hzc)))
    with ⟨S, hSnd, hSlen, hS⟩
  exact ⟨S, hSnd, by rw [hSlen, hlen], hS⟩

/-- Accepting a child: push it on the frontier when it is a router, offer
it to the collector keyed by its `max_distance`. -/
theorem KInv_pass (hm : IsMetric d) (hwfrt : WfN cap rt) (hcovrt : Cov d rt)
    (hkk : 1 ≤ kk) {pq pq1 : PQueue (Node V)} {res : LSet (Node V)} {c : Node V}
    {cs : List (Node V)} (hinv : KInv d q kk rt pq res (c :: cs))
    (hfr : pqNodes pq1 = pqNodes pq ∧ c.isParent = false ∨
           pqNodes pq1 = pqNodes pq ++ [c] ∧ c.isParent = true) :
    KInv d q kk rt pq1 (lsAdd (maxDistance d c q) c res) cs := by
  obtain ⟨k1, k2, k3, k4, extra, k5⟩ :=
    lsAdd_knn (f := fun n : Node V => maxDistance d n q) hinv.lswf hkk c
  have hcsub : c ∈ rt.subnodes := hinv.pend_mem c (List.mem_cons_self _ _)
  have hcwf : WfN cap c := wfn_of_mem_subnodes hwfrt c hcsub
  have hcvne : Node.values c ≠ [] := values_ne_nil hcwf
  obtain ⟨z0, hz0⟩ := List.exists_mem_of_ne_nil _ hcvne
  have hcnotit : c ∉ res.items := (hinv.pend_fresh c (List.mem_cons_self _ _)).1
  have hcnotfr : c ∉ pqNodes pq := (hinv.pend_fresh c (List.mem_cons_self _ _)).2
  have hcnotcs : c ∉ cs := (List.nodup_cons.mp hinv.pend_nodup).1
  have hsupf : ∀ x ∈ pqNodes pq, x ∈ pqNodes pq1 := by
    rcases hfr with ⟨he, _⟩ | ⟨he, _⟩
    · rw [he]
      exact fun x hx => hx
    · rw [he]
      exact fun x hx => List.mem_append_left _ hx
  have hsubf : ∀ x ∈ pqNodes pq1, x ∈ pqNodes pq ∨ (x = c ∧ c.isParent = true) := by
    rcases hfr with ⟨he, _⟩ | ⟨he, hp⟩
    · rw [he]
      exact fun x hx => Or.inl hx
    · rw [he]
      intro x hx
      rcases List.mem_append.mp hx with hx | hx
      · exact Or.inl hx
      · simp only [List.mem_singleton] at hx
        exact Or.inr ⟨hx, hp⟩
  have hcin : c.isParent = true → c ∈ pqNodes pq1 := by
    intro hp
    rcases hfr with ⟨_, hf⟩ | ⟨he, _⟩
    · rw [hp] at hf
      cases hf
    · rw [he]
      exact List.mem_append_right _ (List.mem_singleton_self c)
  have hfrnd : (pqNodes pq1).Nodup := by
    rcases hfr with ⟨he, _⟩ | ⟨he, _⟩
    · rw [he]
      exact hinv.fr_nodup
    · rw [he, List.nodup_append]
      refine ⟨hinv.fr_nodup, List.nodup_singleton c, ?_⟩
      intro a ha hb
      simp only [List.mem_singleton] at hb
      subst hb
      exact hcnotfr ha
  have hit_sub : ∀ x ∈ (lsAdd (maxDistance d c q) c res).items, x ∈ rt.subnodes := by
    intro x hx
    rcases k2 x hx with h | h
    · exact hinv.it_mem x h
    · rw [h]
      exact hcsub
  have hit_nodup : (lsAdd (maxDistance d c q) c res).items.Nodup := k1.1
  have hpar1 : ∀ x ∈ (lsAdd (maxDistance d c q) c res).items,
      x.isParent = true → x ∈ pqNodes pq1 := by
    intro x hx hp
    rcases k2 x hx with h | h
    · exact hsupf x (hinv.par_fr x h hp)
    · rw [h]
      rw [h] at hp
      exact hcin hp
  have hovl1 : OverlapEq ((lsAdd (maxDistance d c q) c res).items ++ pqNodes pq1 ++ cs) := by
    refine OverlapEq_mono hinv.ovl ?_
    intro x hx
    simp only [List.mem_append, List.mem_cons] at hx ⊢
    rcases hx with (hx | hx) | hx
    · rcases k2 x hx with h | h
      · exact Or.inl (Or.inl h)
      · exact Or.inr (Or.inl h)
    · rcases hsubf x hx with h | ⟨h, _⟩
      · exact Or.inl (Or.inr h)
      · exact Or.inr (Or.inl h)
    · exact Or.inr (Or.inr hx)
  have hpq_entries : ∀ e ∈ (lsAdd (maxDistance d c q) c res).pq, e ∈ res.pq ∨ e.2.2 = c := by
    intro e he
    have h2 := k5.mem_iff.mpr (List.mem_append_left extra he)
    rcases List.mem_append.mp h2 with h | h
    · exact Or.inl h
    · simp only [List.mem_singleton] at h
      subst h
      exact Or.inr rfl
  have hc_not_sub_sibling : ∀ x ∈ cs, c ∉ x.subnodes := by
    intro x hx hmem
    have hover : ∃ z, z ∈ c.values ∧ z ∈ x.values :=
      ⟨z0, hz0, values_subset_of_mem_subnodes x c hmem z0 hz0⟩
    have heq := hinv.ovl c
      (List.mem_append_right _ (List.mem_cons_self _ _)) x
      (List.mem_append_right _ (List.mem_cons_of_mem _ hx)) hover
    exact hcnotcs (heq ▸ hx)
  have hrebuild : ∀ z : Node V, (lsAdd (maxDistance d c q) c res).items.length = kk →
      (∀ y2 ∈ (lsAdd (maxDistance d c q) c res).items, maxDistance d y2 q ≤ d q z.router) →
      JustSet d q kk rt (lsAdd (maxDistance d c q) c res).items (pqNodes pq1) cs z := by
    intro z hlen hdom
    rcases rebuildS hm hwfrt hcovrt q (lsAdd (maxDistance d c q) c res).items
        (pqNodes pq1) cs (d q z.router) hit_sub
        (fun a ha b hb hov => hovl1 a (List.mem_append_left _ (List.mem_append_left _ ha))
          b (List.mem_append_left _ (List.mem_append_left _ hb)) hov)
        hit_nodup hpar1 hdom
      with ⟨S, hSnd, hSlen, hS⟩
    exact ⟨S, hSnd, by rw [hSlen, hlen], hS⟩
  have hleafmax : ∀ z ∈ rt.leafNodes, maxDistance d z q = d q z.router := by
    intro z hz
    rcases leafNodes_shape rt z hz with ⟨r, rfl⟩
    exact maxDistance_value hm r q
  have hstep : ∀ z ∈ rt.leafNodes, NotLost res.items (pqNodes pq) (c :: cs) z →
      NotLost (lsAdd (maxDistance d c q) c res).items (pqNodes pq1) cs z ∨
      JustSet d q kk rt (lsAdd (maxDistance d c q) c res).items (pqNodes pq1) cs z := by
    intro z hzleaf hold
    rcases hold with hz | ⟨x, hx, hzx⟩ | ⟨x, hx, hzx⟩
    · by_cases hzin : z ∈ (lsAdd (maxDistance d c q) c res).items
      · exact Or.inl (Or.inl hzin)
      · right
        rcases k3 z hz hzin with ⟨hlen1, hdom⟩
        refine hrebuild z hlen1 ?_
        intro y2 hy2
        exact le_trans (hdom y2 hy2) (le_of_eq (hleafmax z hzleaf))
    · exact Or.inl (Or.inr (Or.inl ⟨x, hsupf x hx, hzx⟩))
    · rcases List.mem_cons.mp hx with rfl | hx2
      · by_cases hcp : x.isParent = true
        · exact Or.inl (Or.inr (Or.inl ⟨x, hcin hcp, hzx⟩))
        · have hcleaf : x.isParent = false := by
            revert hcp
            cases x.isParent <;> simp
          have hzc : z = x := by
            rcases isParent_false_shape hcleaf with ⟨r, hcr⟩
            rw [hcr] at hzx
            simp only [Node.leafNodes, List.mem_singleton] at hzx
            rw [hzx, hcr]
          by_cases hcin1 : x ∈ (lsAdd (maxDistance d x q) x res).items
          · exact Or.inl (Or.inl (by rw [hzc]; exact hcin1))
          · right
            rcases k4 hcin1 with ⟨hlen1, hdom⟩
            refine hrebuild z hlen1 ?_
            intro y2 hy2
            have h2 : maxDistance d x q = d q z.router := by
              rw [hzc]
              exact hleafmax x (hzc ▸ hzleaf)
            exact le_trans (hdom y2 hy2) (le_of_eq h2)
      · exact Or.inl (Or.inr (Or.inr ⟨x, hx2, hzx⟩))
  refine ⟨k1, ?_, hfrnd, hit_sub, fun x hx => hinv.pend_mem x (List.mem_cons_of_mem _ hx),
    hpar1, hovl1, ?_, (List.nodup_cons.mp hinv.pend_nodup).2, ?_, ?_, ?_, ?_⟩
  · intro x hx
    rcases hsubf x hx with h | ⟨heq, hp⟩
    · exact hinv.fr_mem x h
    · subst heq
      exact ⟨hcsub, hp⟩
  · intro x hx
    constructor
    · intro hc2
      rcases k2 x hc2 with h | h
      · exact (hinv.pend_fresh x (List.mem_cons_of_mem _ hx)).1 h
      · exact hcnotcs (h ▸ hx)
    · intro hc2
      rcases hsubf x hc2 with h | ⟨heq, _⟩
      · exact (hinv.pend_fresh x (List.mem_cons_of_mem _ hx)).2 h
      · exact hcnotcs (heq ▸ hx)
  · intro e he x hx
    rcases hpq_entries e he with h | h
    · exact hinv.stale_pend e h x (List.mem_cons_of_mem _ hx)
    · rw [h]
      exact hc_not_sub_sibling x hx
  · intro e he x hx c2 hc2
    rcases hpq_entries e he with hold | hnew
    · rcases hsubf x hx with hx2 | ⟨heq, _⟩
      · exact hinv.stale_fr e hold x hx2 c2 hc2
      · subst heq
        intro hmm
        exact hinv.stale_pend e hold x (List.mem_cons_self _ _)
          (subnodes_trans x c2 (mem_subnodes_of_child hc2) _ hmm)
    · rw [hnew]
      rcases hsubf x hx with hx2 | ⟨heq, _⟩
      · intro hmm
        have hcx : c ∈ x.subnodes :=
          subnodes_trans x c2 (mem_subnodes_of_child hc2) c hmm
        have hover : ∃ z, z ∈ c.values ∧ z ∈ x.values :=
          ⟨z0, hz0, values_subset_of_mem_subnodes x c hcx z0 hz0⟩
        have heq2 := hinv.ovl c
          (List.mem_append_right _ (List.mem_cons_self _ _)) x
          (List.mem_append_left _ (List.mem_append_right _ hx2)) hover
        exact hcnotfr (heq2 ▸ hx2)
      · rw [← heq]
        intro hmm
        exact absurd (sizeOf_lt_of_child hc2 x hmm) (lt_irrefl _)
  · have hLHS : ((res.pq ++ [(-(maxDistance d c q), res.count, c)]).map
        (fun e : Entry (Node V) => e.2.2)).Nodup := by
      rw [List.map_append, List.nodup_append]
      refine ⟨hinv.res_nodup, by simp, ?_⟩
      intro a ha hb
      simp only [List.map_cons, List.map_nil, List.mem_singleton] at hb
      rw [hb] at ha
      rcases List.mem_map.mp ha with ⟨e, he, hei⟩
      have := hinv.stale_pend e he c (List.mem_cons_self _ _)
      rw [hei] at this
      exact this (self_mem_subnodes c)
    have h2 := (k5.map (fun e : Entry (Node V) => e.2.2)).nodup_iff.mp hLHS
    rw [List.map_append] at h2
    exact (List.nodup_append.mp h2).1
  · intro y hy hlost
    by_cases hold : NotLost res.items (pqNodes pq) (c :: cs) y
    · rcases hstep y hy hold with h | h
      · exact absurd h hlost
      · exact h
    · rcases hinv.just y hy hold with ⟨S, hSnd, hSlen, hS⟩
      by_cases hall : ∀ z ∈ S,
          NotLost (lsAdd (maxDistance d c q) c res).items (pqNodes pq1) cs z
      · exact ⟨S, hSnd, hSlen, fun z hz => ⟨(hS z hz).1, hall z hz, (hS z hz).2.2⟩⟩
      · push_neg at hall
        rcases hall with ⟨w0, hw0S, hw0lost⟩
        rcases hS w0 hw0S with ⟨hw0leaf, hw0old, hw0le⟩
        rcases hstep w0 hw0leaf hw0old with h | ⟨S2, h2nd, h2len, h2⟩
        · exact absurd h hw0lost
        · exact ⟨S2, h2nd, h2len, fun w hw =>
            ⟨(h2 w hw).1, (h2 w hw).2.1, le_trans (h2 w hw).2.2 hw0le⟩⟩

/-- Popping a frontier node: discard it from the collector and hand its
children to the inner loop; the measure drops by exactly one. -/
theorem KInv_pop (hwfrt : WfN cap rt) (hnd : (Node.values rt).Nodup)
    {pq pq1 : PQueue (Node V)} {res : LSet (Node V)} {pe : ℚ × Node V}
    (hinv : KInv d q kk rt pq res [])
    (hpop : pqPop pq = some (pe, pq1)) :
    KInv d q kk rt pq1 (lsDiscard pe.2 res) pe.2.childList ∧
    knnMeasure pq1 pe.2.childList + 1 = knnMeasure pq [] := by
  rcases pqPop_inv hpop with ⟨e, hpm, hpe, hperm⟩
  have hpmem : pe.2 ∈ pqNodes pq := hperm.mem_iff.mpr (List.mem_cons_self _ _)
  obtain ⟨hp_sub, hp_par⟩ := hinv.fr_mem pe.2 hpmem
  have hcons_nd : (pe.2 :: pqNodes pq1).Nodup := hperm.nodup_iff.mp hinv.fr_nodup
  have hpnotin : pe.2 ∉ pqNodes pq1 := (List.nodup_cons.mp hcons_nd).1
  have hfr1nd := (List.nodup_cons.mp hcons_nd).2
  have hsup1 : ∀ x ∈ pqNodes pq1, x ∈ pqNodes pq := fun x hx =>
    hperm.mem_iff.mpr (List.mem_cons_of_mem _ hx)
  obtain ⟨r, rad, cs0, hpshape⟩ := isParent_true_shape hp_par
  have hcs_sub_p : ∀ c ∈ pe.2.childList, c ∈ pe.2.subnodes := fun c hc =>
    mem_subnodes_of_child hc
  have hcs_sub : ∀ c ∈ pe.2.childList, c ∈ rt.subnodes := fun c hc =>
    subnodes_trans rt pe.2 hp_sub c (hcs_sub_p c hc)
  have hvalp : (Node.values pe.2).Nodup := values_nodup_of_mem_subnodes rt hnd pe.2 hp_sub
  have hvals_eq : Node.values pe.2 = valuesL pe.2.childList := by
    rw [hpshape]
    rfl
  have hvL : (valuesL pe.2.childList).Nodup := hvals_eq ▸ hvalp
  have hcne : ∀ c ∈ pe.2.childList, Node.values c ≠ [] := fun c hc =>
    values_ne_nil (wfn_of_mem_subnodes hwfrt c (hcs_sub c hc))
  obtain ⟨hcsnd, hcsdj⟩ := children_distinct hvL hcne
  have hfresh : ∀ c ∈ pe.2.childList, c ∉ res.items ∧ c ∉ pqNodes pq := by
    intro c hc
    obtain ⟨z0, hz0⟩ := List.exists_mem_of_ne_nil _ (hcne c hc)
    have hover : ∃ z, z ∈ c.values ∧ z ∈ pe.2.values :=
      ⟨z0, hz0, values_subset_of_mem_subnodes pe.2 c (hcs_sub_p c hc) z0 hz0⟩
    have hne := child_ne_self hc
    constructor
    · intro hcit
      exact hne (hinv.ovl c (List.mem_append_left _ (List.mem_append_left _ hcit)) pe.2
        (List.mem_append_left _ (List.mem_append_right _ hpmem)) hover)
    · intro hcfr
      exact hne (hinv.ovl c (List.mem_append_left _ (List.mem_append_right _ hcfr)) pe.2
        (List.mem_append_left _ (List.mem_append_right _ hpmem)) hover)
  have hitnd : res.items.Nodup := hinv.lswf.1
  have hleaf_ne : ∀ z ∈ rt.leafNodes, z ≠ pe.2 := by
    intro z hz hzp
    rcases leafNodes_shape rt z hz with ⟨r2, hzr⟩
    rw [hzp, hpshape] at hzr
    cases hzr
  have hNL : ∀ z ∈ rt.leafNodes, NotLost res.items (pqNodes pq) [] z →
      NotLost (lsDiscard pe.2 res).items (pqNodes pq1) pe.2.childList z := by
    intro z hz hold
    rcases hold with h | ⟨x, hx, hzx⟩ | ⟨x, hx, _⟩
    · left
      exact (List.Nodup.mem_erase_iff hitnd).mpr ⟨hleaf_ne z hz, h⟩
    · by_cases hxp : x = pe.2
      · rw [hxp, hpshape] at hzx
        simp only [Node.leafNodes] at hzx
        rcases mem_leafNodesL.mp hzx with ⟨c, hc, hzc⟩
        refine Or.inr (Or.inr ⟨c, ?_, hzc⟩)
        rw [hpshape]
        exact hc
      · refine Or.inr (Or.inl ⟨x, ?_, hzx⟩)
        rcases List.mem_cons.mp (hperm.mem_iff.mp hx) with h | h
        · exact absurd h hxp
        · exact h
    · exact absurd hx (List.not_mem_nil x)
  have hOld : ∀ x : Node V, (x ∈ res.items.erase pe.2 ∨ x ∈ pqNodes pq1) →
      x ∈ res.items ++ pqNodes pq ++ ([] : List (Node V)) := by
    intro x hx
    rcases hx with h | h
    · exact List.mem_append_left _ (List.mem_append_left _ (List.mem_of_mem_erase h))
    · exact List.mem_append_left _ (List.mem_append_right _ (hsup1 x h))
  have hclass : ∀ x : Node V,
      x ∈ (lsDiscard pe.2 res).items ++ pqNodes pq1 ++ pe.2.childList →
      (x ∈ res.items.erase pe.2 ∨ x ∈ pqNodes pq1) ∨ x ∈ pe.2.childList := by
    intro x hx
    rcases List.mem_append.mp hx with hx1 | hx2
    · rcases List.mem_append.mp hx1 with hA | hB
      · exact Or.inl (Or.inl hA)
      · exact Or.inl (Or.inr hB)
    · exact Or.inr hx2
  have hne_p : ∀ x : Node V, (x ∈ res.items.erase pe.2 ∨ x ∈ pqNodes pq1) →
      x ≠ pe.2 := by
    intro x hx hxp
    rcases hx with h | h
    · exact ((List.Nodup.mem_erase_iff hitnd).mp h).1 hxp
    · rw [hxp] at h
      exact hpnotin h
  refine ⟨⟨(lsDiscard_wf hinv.lswf pe.2).1, ?_, hfr1nd, ?_, hcs_sub, ?_, ?_, ?_, hcsnd,
    ?_, ?_, hinv.res_nodup, ?_⟩, ?_⟩
  · exact fun x hx => hinv.fr_mem x (hsup1 x hx)
  · exact fun x hx => hinv.it_mem x (List.mem_of_mem_erase hx)
  · intro x hx hp2
    have hxit := List.mem_of_mem_erase hx
    have hxne : x ≠ pe.2 := ((List.Nodup.mem_erase_iff hitnd).mp hx).1
    rcases List.mem_cons.mp (hperm.mem_iff.mp (hinv.par_fr x hxit hp2)) with h | h
    · exact absurd h hxne
    · exact h
  · intro a ha b hb hover
    rcases hclass a ha with hA | hA
    · rcases hclass b hb with hB | hB
      · exact hinv.ovl a (hOld a hA) b (hOld b hB) hover
      · rcases hover with ⟨z, hza, hzb⟩
        have hzp : z ∈ pe.2.values :=
          values_subset_of_mem_subnodes pe.2 b (hcs_sub_p b hB) z hzb
        have heqp := hinv.ovl a (hOld a hA) pe.2
          (List.mem_append_left _ (List.mem_append_right _ hpmem)) ⟨z, hza, hzp⟩
        exact absurd heqp (hne_p a hA)
    · rcases hclass b hb with hB | hB
      · rcases hover with ⟨z, hza, hzb⟩
        have hzp : z ∈ pe.2.values :=
          values_subset_of_mem_subnodes pe.2 a (hcs_sub_p a hA) z hza
        have heqp := hinv.ovl b (hOld b hB) pe.2
          (List.mem_append_left _ (List.mem_append_right _ hpmem)) ⟨z, hzb, hzp⟩
        exact absurd heqp (hne_p b hB)
      · exact hcsdj a hA b hB hover
  · intro c hc
    exact ⟨fun h => (hfresh c hc).1 (List.mem_of_mem_erase h),
      fun h => (hfresh c hc).2 (hsup1 c h)⟩
  · intro e2 he2 x hx
    exact hinv.stale_fr e2 he2 pe.2 hpmem x hx
  · intro e2 he2 x hx c2 hc2
    exact hinv.stale_fr e2 he2 x (hsup1 x hx) c2 hc2
  · intro y hy hlost
    have hlostold : ¬ NotLost res.items (pqNodes pq) [] y := fun h => hlost (hNL y hy h)
    rcases hinv.just y hy hlostold with ⟨S, hSnd, hSlen, hS⟩
    exact ⟨S, hSnd, hSlen, fun z hz =>
      ⟨(hS z hz).1, hNL z (hS z hz).1 (hS z hz).2.1, (hS z hz).2.2⟩⟩
  · have hsum : ((pqNodes pq).map sizeN).sum =
        sizeN pe.2 + ((pqNodes pq1).map sizeN).sum := by
      rw [(hperm.map sizeN).sum_eq]
      simp
    have hszp : sizeN pe.2 = 1 + ((pe.2.childList).map sizeN).sum := by
      rw [hpshape]
      rw [sizeN_parent]
      rfl
    unfold knnMeasure
    simp only [List.map_nil, List.sum_nil]
    omega

/-- The inner children loop preserves the invariant and never grows the
measure. -/
theorem knnChildren_inv (hm : IsMetric d) (hwfrt : WfN cap rt) (hcovrt : Cov d rt)
    (hkk : 1 ≤ kk) (node : Node V) :
    ∀ (pend : List (Node V)) (pq : PQueue (Node V)) (res : LSet (Node V)),
      KInv d q kk rt pq res pend →
      KInv d q kk rt (knnChildren d q node pend pq res).1
        (knnChildren d q node pend pq res).2 [] ∧
      knnMeasure (knnChildren d q node pend pq res).1 [] ≤ knnMeasure pq pend := by
  intro pend
  induction pend with
  | nil =>
    intro pq res h
    exact ⟨h, le_refl _⟩
  | cons c cs ih =>
    intro pq res hinv
    have hcsub : c ∈ rt.subnodes := hinv.pend_mem c (List.mem_cons_self _ _)
    have hccov : Cov d c := cov_of_mem_subnodes hcovrt c hcsub
    have hdropm : knnMeasure pq cs ≤ knnMeasure pq (c :: cs) := by
      unfold knnMeasure
      simp only [List.map_cons, List.sum_cons]
      omega
    simp only [knnChildren]
    by_cases hg1 : leLim (qabs (d node.router q - d node.router c.router) - c.radius)
        (lsLimit res).1 = true
    · rw [if_pos hg1]
      have hinv1 : KInv d q kk rt pq (lsLimit res).2 (c :: cs) := by
        rw [lsLimit_snd res]
        exact KInv_clean hinv
      by_cases hg2 : leLim (minDistance d c q) (lsLimit (lsLimit res).2).1 = true
      · rw [if_pos hg2]
        have hinv2 : KInv d q kk rt pq (lsLimit (lsLimit res).2).2 (c :: cs) := by
          rw [lsLimit_snd (lsLimit res).2]
          exact KInv_clean hinv1
        by_cases hcp : c.isParent = true
        · rw [if_pos hcp]
          have hpass : KInv d q kk rt (pqPush (minDistance d c q) c pq)
              (lsAdd (maxDistance d c q) c (lsLimit (lsLimit res).2).2) cs :=
            KInv_pass hm hwfrt hcovrt hkk hinv2 (Or.inr ⟨pqNodes_push, hcp⟩)
          rcases ih (pqPush (minDistance d c q) c pq)
            (lsAdd (maxDistance d c q) c (lsLimit (lsLimit res).2).2) hpass with ⟨hI, hM⟩
          refine ⟨hI, le_trans hM ?_⟩
          unfold knnMeasure
          rw [pqNodes_push]
          simp only [List.map_append, List.sum_append, List.map_cons, List.sum_cons,
            List.map_nil, List.sum_nil]
          omega
        · rw [if_neg hcp]
          have hcpf : c.isParent = false := by
            revert hcp
            cases c.isParent <;> simp
          have hpass : KInv d q kk rt pq
              (lsAdd (maxDistance d c q) c (lsLimit (lsLimit res).2).2) cs :=
            KInv_pass hm hwfrt hcovrt hkk hinv2 (Or.inl ⟨rfl, hcpf⟩)
          rcases ih pq (lsAdd (maxDistance d c q) c (lsLimit (lsLimit res).2).2) hpass
            with ⟨hI, hM⟩
          exact ⟨hI, le_trans hM hdropm⟩
      · rw [if_neg hg2]
        have hg2f : leLim (minDistance d c q) (lsLimit (lsLimit res).2).1 = false := by
          revert hg2
          cases leLim (minDistance d c q) (lsLimit (lsLimit res).2).1 <;> simp
        rcases leLim_false hg2f with ⟨L, hL, hLlt⟩
        have hbound : ∀ z ∈ c.leafNodes, L < d q z.router := by
          intro z hz
          exact lt_of_lt_of_le hLlt (minDistance_sound hm hccov hz q)
        have hprune := KInv_prune_of_limit hm hwfrt hcovrt hkk hinv1 hL hbound
        rcases ih pq (lsLimit (lsLimit res).2).2 hprune with ⟨hI, hM⟩
        exact ⟨hI, le_trans hM hdropm⟩
    · rw [if_neg hg1]
      have hg1f : leLim (qabs (d node.router q - d node.router c.router) - c.radius)
          (lsLimit res).1 = false := by
        revert hg1
        cases leLim (qabs (d node.router q - d node.router c.router) - c.radius)
          (lsLimit res).1 <;> simp
      rcases leLim_false hg1f with ⟨L, hL, hLlt⟩
      have hbound : ∀ z ∈ c.leafNodes, L < d q z.router := by
        intro z hz
        exact lt_of_lt_of_le hLlt (guard1_sound hm hccov hz node.router q)
      have hprune := KInv_prune_of_limit hm hwfrt hcovrt hkk hinv hL hbound
      rcases ih pq (lsLimit res).2 hprune with ⟨hI, hM⟩
      exact ⟨hI, le_trans hM hdropm⟩

/-- The `while pq` loop: with the invariant and enough fuel, the final
collector holds only leaves, keeps distinct heap items, and every stored
leaf left out is justified by `k` collected leaves at least as close. -/
theorem knnLoop_inv (hm : IsMetric d) (hwfrt : WfN cap rt) (hcovrt : Cov d rt)
    (hnd : (Node.values rt).Nodup) (hkk : 1 ≤ kk) :
    ∀ (fuel : ℕ) (pq : PQueue (Node V)) (res : LSet (Node V)),
      KInv d q kk rt pq res [] → knnMeasure pq [] < fuel →
      LSWf (fun n => maxDistance d n q) kk (knnLoop d q fuel pq res) ∧
      (∀ x ∈ (knnLoop d q fuel pq res).items, x ∈ rt.leafNodes) ∧
      (((knnLoop d q fuel pq res).pq.map (fun e => e.2.2)).Nodup) ∧
      (∀ y ∈ rt.leafNodes, y ∉ (knnLoop d q fuel pq res).items →
        ∃ S : List (Node V), S.Nodup ∧ S.length = kk ∧
          ∀ z ∈ S, z ∈ (knnLoop d q fuel pq res).items ∧
            d q z.router ≤ d q y.router) := by
  intro fuel
  induction fuel with
  | zero =>
    intro pq res _ hmeas
    exact absurd hmeas (Nat.not_lt_zero _)
  | succ fuel ih =>
    intro pq res hinv hmeas
    simp only [knnLoop]
    rcases hp : pqPop pq with _ | ⟨⟨pe, pq1⟩⟩
    · dsimp only
      have hfe : pq.items = [] := by
        unfold pqPop at hp
        rcases hq : popMinE pq.items with _ | ⟨⟨e, rest⟩⟩
        · exact popMinE_none.mp hq
        · rw [hq] at hp
          cases hp
      have hfrn : pqNodes pq = [] := by
        unfold pqNodes
        rw [hfe]
        rfl
      refine ⟨hinv.lswf, ?_, hinv.res_nodup, ?_⟩
      · intro x hx
        have hsub := hinv.it_mem x hx
        rcases hxp : x.isParent with _ | _
        · exact mem_leafNodes_of_subnodes rt x hsub hxp
        · have hfr := hinv.par_fr x hx hxp
          rw [hfrn] at hfr
          exact absurd hfr (List.not_mem_nil x)
      · intro y hy hnot
        have hlost : ¬ NotLost res.items (pqNodes pq) [] y := by
          rintro (h | ⟨x, hx, _⟩ | ⟨x, hx, _⟩)
          · exact hnot h
          · rw [hfrn] at hx
            exact List.not_mem_nil x hx
          · exact List.not_mem_nil x hx
        rcases hinv.just y hy hlost with ⟨S, hSnd, hSlen, hS⟩
        refine ⟨S, hSnd, hSlen, ?_⟩
        intro z hz
        rcases hS z hz with ⟨hzl, hzn, hzd⟩
        rcases hzn with h | ⟨x, hx, _⟩ | ⟨x, hx, _⟩
        · exact ⟨h, hzd⟩
        · rw [hfrn] at hx
          exact absurd hx (List.not_mem_nil x)
        · exact absurd hx (List.not_mem_nil x)
    · dsimp only
      rcases KInv_pop hwfrt hnd hinv hp with ⟨hinv2, hmeq⟩
      rcases knnChildren_inv hm hwfrt hcovrt hkk pe.2 pe.2.childList pq1
        (lsDiscard pe.2 res) hinv2 with ⟨hinv3, hm3⟩
      exact ih _ _ hinv3 (by omega)

end KnnInv

/-- C1: k-NN correctness — for every tree built by inserting a nonempty
finite value set (capacity ≥ 2, metric distance function), every query
value `q` and every integer `k ≥ 1`: `knn(q, k)` succeeds, the returned
list has size `min(k, |V|)`, every returned value is a stored value, and no
stored value excluded from the result is strictly closer to `q` than any
included value (in particular, than the farthest included one). -/
theorem C1_knn_correctness {V : Type} [DecidableEq V] (d : V → V → ℚ) (cap : ℕ)
    (vs : List V) (q : V) (k : ℤ) (hm : IsMetric d) (hcap : 2 ≤ cap)
    (hne : vs ≠ []) (hnd : vs.Nodup) (hk : 1 ≤ k) :
    ∃ res : List V, mtreeKnn d (mtreeOfList d cap vs) q k = .ok res ∧
      res.length = min k.toNat vs.length ∧
      (∀ x ∈ res, x ∈ vs) ∧
      (∀ y ∈ vs, y ∉ res → ∀ x ∈ res, d q x ≤ d q y) := by
  obtain ⟨hroot, hlen, hperm, _⟩ := mtreeOfList_ok hm hcap vs
  set t := mtreeOfList d cap vs with ht
  have hk0 : ¬(k < 0) := by omega
  have hkne : ¬(k = 0) := by omega
  simp only [mtreeKnn]
  rw [if_neg hk0, if_neg hkne]
  by_cases hbig : (t.length : ℤ) ≤ k
  · rw [if_pos hbig]
    refine ⟨mtreeValues t, rfl, ?_, ?_, ?_⟩
    · have hvl : (mtreeValues t).length = vs.length := hperm.length_eq
      have hle : vs.length ≤ k.toNat := by
        rw [hlen] at hbig
        omega
      rw [hvl, min_eq_right hle]
    · intro x hx
      exact hperm.mem_iff.mp hx
    · intro y hy hnotin
      exact absurd (hperm.mem_iff.mpr hy) hnotin
  · rw [if_neg hbig]
    rcases hrt : t.root with _ | rt
    · exfalso
      have hmv : mtreeValues t = [] := by
        unfold mtreeValues
        rw [hrt]
      rw [hmv] at hperm
      exact hne (List.perm_nil.mp hperm.symm)
    · dsimp only
      rw [hrt] at hroot
      obtain ⟨hpar, hwf, hcov⟩ := hroot
      have hmv : mtreeValues t = rt.values := by
        unfold mtreeValues
        rw [hrt]
      have hndv : (Node.values rt).Nodup := by
        have := hperm.nodup_iff.mpr hnd
        rw [hmv] at this
        exact this
      have hkk1 : 1 ≤ k.toNat := by omega
      have hkklt : k.toNat < vs.length := by
        rw [hlen] at hbig
        omega
      have hinv0 : KInv d q k.toNat rt (pqPush (minDistance d rt q) rt ⟨[], 0⟩)
          (lsEmpty k.toNat) [] := by
        refine ⟨lsEmpty_wf k.toNat, ?_, ?_, ?_, ?_, ?_, ?_, ?_, List.nodup_nil,
          ?_, ?_, List.nodup_nil, ?_⟩
        · intro x hx
          simp only [pqNodes, pqPush, List.nil_append, List.map_cons, List.map_nil,
            List.mem_singleton] at hx
          rw [hx]
          exact ⟨self_mem_subnodes rt, hpar⟩
        · simp [pqNodes, pqPush]
        · intro x hx
          simp [lsEmpty] at hx
        · intro x hx
          simp at hx
        · intro x hx
          simp [lsEmpty] at hx
        · intro a ha b hb _
          simp only [lsEmpty, pqNodes, pqPush, List.nil_append, List.map_cons,
            List.map_nil, List.append_nil, List.mem_append, List.mem_singleton,
            List.not_mem_nil, false_or, or_false] at ha hb
          rw [ha, hb]
        · intro x hx
          simp at hx
        · intro e he
          simp [lsEmpty] at he
        · intro e he
          simp [lsEmpty] at he
        · intro y hy hlost
          exfalso
          refine hlost (Or.inr (Or.inl ⟨rt, ?_, hy⟩))
          simp [pqNodes, pqPush]
      have hmeas0 : knnMeasure (pqPush (minDistance d rt q) rt ⟨[], 0⟩) [] <
          sizeN rt + 1 := by
        unfold knnMeasure
        simp [pqNodes, pqPush]
      obtain ⟨hlswf, hleaves, hpqnd, hjust⟩ :=
        knnLoop_inv hm hwf hcov hndv hkk1 (sizeN rt + 1) _ _ hinv0 hmeas0
      set res' := knnLoop d q (sizeN rt + 1) (pqPush (minDistance d rt q) rt ⟨[], 0⟩)
        (lsEmpty k.toNat) with hres'
      have hperm_iter : (lsIter res').Perm res'.items :=
        lsIter_perm hlswf.2.1 hlswf.1 hpqnd
      have hitems_le : res'.items.length ≤ k.toNat := by
        have h4 := hlswf.2.2.2.1
        have h7 := hlswf.2.2.2.2.2.2
        omega
      have hleafnd : rt.leafNodes.Nodup := by
        have h1 : ((rt.leafNodes).map Node.router).Nodup := by
          rw [← values_eq_map_router]
          exact hndv
        exact h1.of_map
      have hleaflen : rt.leafNodes.length = vs.length := by
        have h1 : rt.values.length = vs.length := by
          rw [← hmv]
          exact hperm.length_eq
        rw [values_eq_map_router] at h1
        simpa using h1
      have hexlost : ∃ y ∈ rt.leafNodes, y ∉ res'.items := by
        by_contra hcon
        push_neg at hcon
        have hle := (List.subperm_of_subset hleafnd hcon).length_le
        omega
      obtain ⟨y0, hy0leaf, hy0not⟩ := hexlost
      obtain ⟨S0, hS0nd, hS0len, hS0⟩ := hjust y0 hy0leaf hy0not
      have hS0le : k.toNat ≤ res'.items.length := by
        have hle := (List.subperm_of_subset hS0nd (fun z hz => (hS0 z hz).1)).length_le
        omega
      have hitems_eq : res'.items.length = k.toNat := le_antisymm hitems_le hS0le
      have hSfull : ∀ S : List (Node V), S.Nodup → S.length = k.toNat →
          (∀ z ∈ S, z ∈ res'.items) → ∀ x ∈ res'.items, x ∈ S := by
        intro S hSnd hSlen hSsub x hx
        by_contra hxnot
        have hsub2 : ∀ a ∈ x :: S, a ∈ res'.items := by
          intro a ha
          rcases List.mem_cons.mp ha with rfl | ha
          · exact hx
          · exact hSsub a ha
        have hle := (List.subperm_of_subset (List.nodup_cons.mpr ⟨hxnot, hSnd⟩)
          hsub2).length_le
        simp only [List.length_cons] at hle
        omega
      refine ⟨(lsIter res').map Node.router, rfl, ?_, ?_, ?_⟩
      · rw [List.length_map, hperm_iter.length_eq, hitems_eq,
          min_eq_left (le_of_lt hkklt)]
      · intro x hx
        rcases List.mem_map.mp hx with ⟨it, hit, rfl⟩
        have hit_items : it ∈ res'.items := hperm_iter.mem_iff.mp hit
        have hit_leaf : it ∈ rt.leafNodes := hleaves it hit_items
        have : it.router ∈ rt.values := router_mem_values hit_leaf
        rw [← hmv] at this
        exact hperm.mem_iff.mp this
      · intro y hy hnotin x hx
        have hyval : y ∈ rt.values := by
          rw [← hmv]
          exact hperm.mem_iff.mpr hy
        rw [values_eq_map_router] at hyval
        rcases List.mem_map.mp hyval with ⟨ly, hlyleaf, hlyr⟩
        have hlynot : ly ∉ res'.items := by
          intro hcon
          exact hnotin (List.mem_map.mpr ⟨ly, hperm_iter.mem_iff.mpr hcon, hlyr⟩)
        obtain ⟨S, hSnd, hSlen, hS⟩ := hjust ly hlyleaf hlynot
        rcases List.mem_map.mp hx with ⟨it, hit, rfl⟩
        have hit_items : it ∈ res'.items := hperm_iter.mem_iff.mp hit
        have hit_S : it ∈ S := hSfull S hSnd hSlen (fun z hz => (hS z hz).1) it hit_items
        have hd := (hS it hit_S).2
        rw [hlyr] at hd
        exact hd

theorem C1_knn_correctness_witness :
    ∃ res : List ℤ,
      mtreeKnn distAbsZ (mtreeOfList distAbsZ 2 [0, 10, 20, 30]) 11 2 = .ok res ∧
      res.length = min (2 : ℤ).toNat [(0 : ℤ), 10, 20, 30].length ∧
      (∀ x ∈ res, x ∈ [(0 : ℤ), 10, 20, 30]) ∧
      (∀ y ∈ [(0 : ℤ), 10, 20, 30], y ∉ res → ∀ x ∈ res,
        distAbsZ 11 x ≤ distAbsZ 11 y) :=
  C1_knn_correctness distAbsZ 2 [0, 10, 20, 30] 11 2 isMetric_distAbsZ (by decide)
    (by decide) (by decide) (by decide)

end KnnProofs

end MT
